import Mathlib

/-!
Formal model of the core algorithms of DVIDSparkServices
(`DVIDSparkServices/reconutils/morpho.py`): split-body relabeling,
overlap (contingency) tables with row-argmax, and distributed stitching
(offset assignment, pairwise merge computation, global reconciliation,
relabel application).

Label volumes are modelled as flat lists of natural-number labels
(`List Nat`); 3D geometry is carried explicitly where the code uses it
(`Arr3`).  Python dicts whose use sites are total are modelled as
functions; dicts whose key set matters (the returned `new_to_orig`
mapping, the reconciliation state, the relabel mapping) are modelled as
association lists.

The vigra library calls are external to the repository:
`relabelConsecutive` is modelled concretely (a dense order-preserving
renumbering with 0 kept at 0, matching its documented contract), while
the connected-components output `labels_split` of
`labelMultiArrayWithBackground` is taken as a parameter constrained by
the hypotheses `IsCCOf`, which state the component-labeling contract the
code relies on: background is preserved, each component lies inside one
original label, and component ids are consecutive from 1.
-/

namespace Morpho

/-- Maximum of a list of naturals (0 for the empty list). -/
def maxL (l : List Nat) : Nat := l.foldr max 0

/-- Sorted distinct values occurring in `l` (numpy sort of unique). -/
def sortedUnique (l : List Nat) : List Nat :=
  (List.range (maxL l + 1)).filter (fun v => l.contains v)

/-! ### Offset assignment (morpho.stitch, lines 329-336)

Subvolumes are walked in a fixed (collect) order and each block's offset
is the cumulative sum of the `max_id` values of all preceding blocks. -/

/-- Offset of block `i`: cumulative sum of `max_id` over preceding blocks. -/
def blockOffset (maxIds : List Nat) (i : Nat) : Nat := (maxIds.take i).sum

/-! ### Split-body relabeling (morpho.split_disconnected_bodies, lines 23-98,
and its helper `_split_body_mappings`, lines 101-168)

The original volume is `L`; the connected-components labeling computed by
vigra is the parameter `S` (`labels_split`). -/

/-- Sorted list of the distinct nonzero labels of a volume: the nonzero part
of the key set of the `orig_to_consecutive` mapping returned by vigra's
`relabelConsecutive`. -/
def origLabels (L : List Nat) : List Nat :=
  (List.range (maxL L + 1)).filter (fun v => decide (v ≠ 0) && L.contains v)

/-- The `orig_to_consecutive` mapping of `relabelConsecutive(start_label=1)`:
0 stays 0, the distinct nonzero labels are renumbered densely to `1..N`. -/
def orig_to_consecutive (L : List Nat) (v : Nat) : Nat :=
  if v = 0 then 0 else 1 + (origLabels L).countP (fun d => decide (d < v))

/-- `cons_to_orig = reverse_dict(orig_to_consecutive)` (morpho.py line 58). -/
def cons_to_orig (L : List Nat) (r : Nat) : Nat :=
  if r = 0 then 0 else (origLabels L).getD (r - 1) 0

/-- `labels_consecutive`: the densely renumbered volume (line 54). -/
def labels_consecutive (L : List Nat) : List Nat := L.map (orig_to_consecutive L)

/-- `max_consecutive_label` returned by `relabelConsecutive`. -/
def max_consecutive_label (L : List Nat) : Nat := (origLabels L).length

/-- `max_orig = max(orig_to_consecutive.keys())` (line 57). -/
def max_orig (L : List Nat) : Nat := maxL L

/-- Entry of the sparse contingency table of `labels_consecutive` (`C`) versus
`labels_split` (`S`): the number of positions holding `r` in `C` and `c` in
`S` (morpho.py line 129). -/
def tcount (C S : List Nat) (r c : Nat) : Nat :=
  (C.zip S).countP (fun p => p.1 == r && p.2 == c)

/-- Maximum entry of row `r` of the contingency table. -/
def rowMax (C S : List Nat) (r : Nat) : Nat :=
  maxL ((List.range (maxL S + 1)).map (tcount C S r))

/-- `main_split_segments[r]` (line 134): the sparse row-argmax of the
contingency table; with entries visited in row-major sorted order and a
strict comparison, this is the lowest column attaining the row maximum
(0 for an all-zero row). -/
def main_split (C S : List Nat) (r : Nat) : Nat :=
  ((List.range (maxL S + 1)).find? (fun c => tcount C S r c == rowMax C S r)).getD 0

/-- `split_to_orig` (lines 137-138): each split id is sent to the consecutive
id whose region contains it (the first co-occurrence determines it; the CC
contract makes it unique), and 0 is sent to 0. -/
def split_to_orig (C S : List Nat) (s : Nat) : Nat :=
  (((C.zip S).find? (fun p => p.2 == s)).map (fun p => p.1)).getD 0

/-- `nonmain_split_ids` (lines 142-151): the split ids that keep a nonzero
overlap entry after the main entry of every row is removed, in sorted order
(`numpy.unique`). -/
def nonmain_split_ids (C S : List Nat) : List Nat :=
  (List.range (maxL S + 1)).filter (fun s =>
    (List.range (maxL C + 1)).any (fun r =>
      !(tcount C S r s == 0) && !(main_split C S r == s)))

/-- `split_to_nonconflicting` (lines 147-159): main split ids keep the id of
their row (`main_split_ids_to_nonconflicting`), the nonmain ids are zipped in
sorted order with the fresh range starting at `num_orig_segments + 1`. -/
def split_to_nonconflicting (C S : List Nat) (s : Nat) : Nat :=
  if s ∈ nonmain_split_ids C S then
    maxL C + 1 + (nonmain_split_ids C S).countP (fun t => decide (t < s))
  else split_to_orig C S s

/-- `nonconflicting_to_split = reverse_dict(split_to_nonconflicting)`
(line 162). -/
def nonconflicting_to_split (C S : List Nat) (v : Nat) : Nat :=
  ((List.range (maxL S + 1)).find? (fun s =>
    split_to_nonconflicting C S s == v)).getD 0

/-- `nonconflicting_to_orig` (line 165): compose the reverse map with
`split_to_orig`. -/
def nonconflicting_to_orig (C S : List Nat) (v : Nat) : Nat :=
  split_to_orig C S (nonconflicting_to_split C S v)

/-- `num_splits` (line 66): the number of fresh segments created by
splitting, i.e. the number of nonmain split ids. -/
def num_splits (C S : List Nat) : Nat := (nonmain_split_ids C S).length

/-- `cons_with_splits_to_orig_with_splits` (lines 69-72): original ids for the
consecutive range `0..N`, fresh ids `max_orig+1, ...` for the split range. -/
def cons_with_splits_to_orig_with_splits (L : List Nat) (v : Nat) : Nat :=
  if v ≤ max_consecutive_label L then cons_to_orig L v
  else max_orig L + (v - max_consecutive_label L)

/-- `labels_new` (lines 75-78): remap `labels_split` through
`split_to_orig_with_splits`. -/
def labels_new (L S : List Nat) : List Nat :=
  S.map (fun s => cons_with_splits_to_orig_with_splits L
    (split_to_nonconflicting (labels_consecutive L) S s))

/-- `orig_with_splits_to_cons_with_splits` (line 81): reverse of
`cons_with_splits_to_orig_with_splits`. -/
def orig_with_splits_to_cons_with_splits (L : List Nat) (w : Nat) : Nat :=
  if w ≤ max_orig L then orig_to_consecutive L w
  else max_consecutive_label L + (w - max_orig L)

/-- `orig_with_splits_to_orig` (lines 84-85): the composed chain
`origWithSplits -> consWithSplits -> cons -> orig`. -/
def orig_with_splits_to_orig (L S : List Nat) (w : Nat) : Nat :=
  cons_to_orig L (nonconflicting_to_orig (labels_consecutive L) S
    (orig_with_splits_to_cons_with_splits L w))

/-- The key set of the `orig_with_splits_to_orig` dict: all original labels
(including 0) together with the fresh labels `max_orig+1 ..`. -/
def ows_keys (L S : List Nat) : List Nat :=
  0 :: origLabels L ++
    (List.range (num_splits (labels_consecutive L) S)).map
      (fun j => max_orig L + 1 + j)

/-- `split_labels` (line 92): the original labels that some fresh label maps
back to, i.e. the labels that participated in a split. -/
def split_labels (L S : List Nat) : List Nat :=
  (ows_keys L S).filterMap (fun k =>
    if max_orig L < k then some (orig_with_splits_to_orig L S k) else none)

/-- `new_to_orig` (lines 87-96): the fresh labels (`k > max_orig`) plus every
label mapping to a split label, as an association list (a Python dict). -/
def new_to_orig (L S : List Nat) : List (Nat × Nat) :=
  (ows_keys L S).filterMap (fun k =>
    if max_orig L < k ∨ orig_with_splits_to_orig L S k ∈ split_labels L S
    then some (k, orig_with_splits_to_orig L S k) else none)

/-- `vigra.analysis.applyMapping` with `allow_incomplete_mapping=True`:
labels absent from the mapping pass through unchanged. -/
def applyMapping (m : List (Nat × Nat)) (v : Nat) : Nat :=
  ((m.find? (fun p => p.1 == v)).map (fun p => p.2)).getD v

/-- `split_disconnected_bodies(labels_orig)` (lines 23-98), with the vigra
connected-components output supplied as `S`. -/
def split_disconnected_bodies (L S : List Nat) : List Nat × List (Nat × Nat) :=
  (labels_new L S, new_to_orig L S)

/-- Contract of vigra's `labelMultiArrayWithBackground` as used by
`split_disconnected_bodies`: the components labeling `S` of the volume `L`
has the same length; background is exactly the background of `L`; each
component lies inside a single original label; component ids are
consecutive starting at 1. -/
def IsCCOf (L S : List Nat) : Prop :=
  S.length = L.length ∧
  (∀ i, i < L.length → (S.getD i 0 = 0 ↔ L.getD i 0 = 0)) ∧
  (∀ i, i < L.length → ∀ j, j < L.length →
    S.getD i 0 = S.getD j 0 → L.getD i 0 = L.getD j 0) ∧
  (∀ s, s < maxL S + 1 → 1 ≤ s → s ∈ S)

instance isCCOf_decidable (L S : List Nat) : Decidable (IsCCOf L S) := by
  unfold IsCCOf
  infer_instance

/-! ### Row argmax (morpho.row_argmax, lines 218-233, and
`_sparse_row_argmax`, lines 236-258) -/

/-- `numpy.argmax` over one dense row: the lowest index attaining the
maximum. -/
def npRowArgmax (row : List Nat) : Nat :=
  ((List.range row.length).find? (fun c => row.getD c 0 == maxL row)).getD 0

/-- `row_argmax` on a dense table (`numpy.argmax(table, axis=1)`). -/
def denseRowArgmax (table : List (List Nat)) : List Nat := table.map npRowArgmax

/-- One iteration of the `_sparse_row_argmax` loop (lines 251-257); an entry
is `(row, col, value)` and the state is the `row_maxcols` array of
`(max value, argmax col)` pairs. -/
def sparseArgmaxStep (st : List (Nat × Nat)) (e : Nat × Nat × Nat) :
    List (Nat × Nat) :=
  if (st.getD e.1 (0, 0)).1 < e.2.2 then st.set e.1 (e.2.2, e.2.1) else st

/-- `_sparse_row_argmax(M.col, M.row, M.data, M.shape[0])` over the entry
list of a coo matrix. -/
def sparseRowArgmax (entries : List (Nat × Nat × Nat)) (numDenseRows : Nat) :
    List Nat :=
  (entries.foldl sparseArgmaxStep (List.replicate numDenseRows (0, 0))).map
    (fun p => p.2)

/-- The action of one `_sparse_row_argmax` iteration on the (max, argmax)
pair of the entry's own row. -/
def rowStep (mc : Nat × Nat) (e : Nat × Nat × Nat) : Nat × Nat :=
  if mc.1 < e.2.2 then (e.2.2, e.2.1) else mc

/-- The entries of one row of a sparse table. -/
def sparseRowEntries (entries : List (Nat × Nat × Nat)) (r : Nat) :
    List (Nat × Nat × Nat) :=
  entries.filter (fun e => e.1 == r)

/-- The dense value of a sparse table at `(r, c)` (0 when absent). -/
def sparseVal (entries : List (Nat × Nat × Nat)) (r c : Nat) : Nat :=
  ((entries.find? (fun e => e.1 == r && e.2.1 == c)).map (fun e => e.2.2)).getD 0

/-- The maximum of row `r` of a sparse table (0 for an empty row). -/
def sparseRowMax (entries : List (Nat × Nat × Nat)) (r : Nat) : Nat :=
  maxL ((sparseRowEntries entries r).map (fun e => e.2.2))

/-- Row-major strict ordering of sparse entries (the order produced by
`coo_matrix.sum_duplicates()`). -/
def RowMajorSorted (entries : List (Nat × Nat × Nat)) : Prop :=
  entries.Pairwise (fun a b => a.1 < b.1 ∨ (a.1 = b.1 ∧ a.2.1 < b.2.1))

instance rowMajorSorted_decidable (entries : List (Nat × Nat × Nat)) :
    Decidable (RowMajorSorted entries) := by
  unfold RowMajorSorted
  infer_instance

/-- Decidable equality of `Except` results, used by the concrete runs. -/
instance exceptDecidableEq {ε α : Type} [DecidableEq ε] [DecidableEq α] :
    DecidableEq (Except ε α)
  | Except.ok a, Except.ok b =>
    if h : a = b then isTrue (by rw [h])
    else isFalse (by intro hc; cases hc; exact h rfl)
  | Except.error e, Except.error f =>
    if h : e = f then isTrue (by rw [h])
    else isFalse (by intro hc; cases hc; exact h rfl)
  | Except.ok a, Except.error f => isFalse (by intro hc; cases hc)
  | Except.error e, Except.ok b => isFalse (by intro hc; cases hc)

/-! ### 3D arrays and the contingency table (morpho.contingency_table,
lines 171-198) -/

/-- A 3D array: shape metadata plus row-major (z,y,x) flattened data. -/
structure Arr3 where
  nz : Nat
  ny : Nat
  nx : Nat
  data : List Nat
deriving DecidableEq

/-- The 3D shape of an array. -/
def Arr3.shape (a : Arr3) : Nat × Nat × Nat := (a.nz, a.ny, a.nx)

/-- Element access `a[z, y, x]` (0 outside the data). -/
def Arr3.at3 (a : Arr3) (z y x : Nat) : Nat :=
  a.data.getD (z * (a.ny * a.nx) + y * a.nx + x) 0

/-- All (z,y,x) index triples of an array, in row-major order
(`numpy.ndenumerate`). -/
def coords (a : Arr3) : List (Nat × Nat × Nat) :=
  (((List.range a.nz).map (fun z =>
    ((List.range a.ny).map (fun y =>
      (List.range a.nx).map (fun x => (z, y, x)))).flatten)).flatten)

/-- `contingency_table(vol1, vol2, sparse=True)` (lines 171-191): both
volumes are flattened and the *flattened* shapes are asserted equal; the
result is the deduplicated co-occurrence count table in row-major sorted
order (scipy `coo_matrix` plus `sum_duplicates`). -/
def contingency_table (vol1 vol2 : Arr3) :
    Except String (List ((Nat × Nat) × Nat)) :=
  if vol1.data.length = vol2.data.length then
    let z := vol1.data.zip vol2.data
    Except.ok (((List.range (maxL vol1.data + 1)).map (fun a =>
      (List.range (maxL vol2.data + 1)).filterMap (fun b =>
        if (a, b) ∈ z then
          some ((a, b), z.countP (fun p => p == (a, b)))
        else none))).flatten)
  else Except.error "assert vol1.shape == vol2.shape"

/-- Dense read of a pair-count table (0 when the pair is absent). -/
def tableCount (tbl : List ((Nat × Nat) × Nat)) (a b : Nat) : Nat :=
  ((tbl.find? (fun e => e.1 == (a, b))).map (fun e => e.2)).getD 0

/-! ### Pairwise merge computation (morpho.stitcher, lines 410-490) -/

/-- Axis-aligned bounding box of a subvolume in global coordinates. -/
structure Box where
  x1 : Int
  x2 : Int
  y1 : Int
  y2 : Int
  z1 : Int
  z2 : Int
deriving DecidableEq

/-- Subvolume descriptor (identity, box, halo width). -/
structure Subvolume where
  sv_index : Nat
  box : Box
  border : Int
deriving DecidableEq

/-- Modelled from the spec: `Subvolume.touches` belongs to the repository's
Subvolume class, which is not among the provided sources.  Spec section 4.4
stage 3 describes the stitcher as determining the separating axis "by testing
which axis ranges touch"; two half-open axis ranges [p1,p2) and [p1_2,p2_2)
touch when one begins exactly where the other ends. -/
def touches (p1 p2 p1_2 p2_2 : Int) : Bool := p1 == p2_2 || p2 == p1_2

/-- The interface-slab index ranges `((z1,z2),(y1,y2),(x1,x2))` of the
stitcher (lines 434-450): start from the full boundary shape and narrow each
axis on which the two subvolumes touch to a one-voxel slab at the midpoint
(Python 2 integer division). -/
def slabRanges (sv1 sv2 : Subvolume) (b1 : Arr3) :
    (Nat × Nat) × (Nat × Nat) × (Nat × Nat) :=
  let zr := if touches sv1.box.z1 sv1.box.z2 sv2.box.z1 sv2.box.z2
    then (b1.nz / 2, b1.nz / 2 + 1) else (0, b1.nz)
  let yr := if touches sv1.box.y1 sv1.box.y2 sv2.box.y1 sv2.box.y2
    then (b1.ny / 2, b1.ny / 2 + 1) else (0, b1.ny)
  let xr := if touches sv1.box.x1 sv1.box.x2 sv2.box.x1 sv2.box.x2
    then (b1.nx / 2, b1.nx / 2 + 1) else (0, b1.nx)
  (zr, yr, xr)

/-- `eligible_bodies` (line 452): the labels of `boundary2` inside the
interface slab. -/
def eligibleBodies (sv1 sv2 : Subvolume) (b1 b2 : Arr3) : List Nat :=
  let r := slabRanges sv1 sv2 b1
  sortedUnique ((coords b2).filterMap (fun p =>
    if r.1.1 ≤ p.1 ∧ p.1 < r.1.2 ∧ r.2.1.1 ≤ p.2.1 ∧ p.2.1 < r.2.1.2 ∧
       r.2.2.1 ≤ p.2.2 ∧ p.2.2 < r.2.2.2
    then some (b2.at3 p.1 p.2.1 p.2.2) else none))

/-- Keys of `body2body[body2]` in Python-dict insertion order: the `body1`
values co-occurring with `body2` (both nonzero), in order of first occurrence
along the row-major traversal (lines 462-470). -/
def bodyDictKeys (b1 b2 : Arr3) (body2 : Nat) : List Nat :=
  ((coords b1).filterMap (fun p =>
    let v1 := b1.at3 p.1 p.2.1 p.2.2
    if v1 ≠ 0 ∧ b2.at3 p.1 p.2.1 p.2.2 = body2 then some v1 else none)).foldl
    (fun acc v => if v ∈ acc then acc else acc ++ [v]) []

/-- The stitcher body after the two contributions have been ordered by
ascending subvolume index (lines 430-490). -/
def stitcherOrdered (offsets : Nat → Nat) (sv1 : Subvolume) (b1 : Arr3)
    (sv2 : Subvolume) (b2 : Arr3) : Except String (Nat × List (Nat × Nat)) :=
  if b1.shape ≠ b2.shape then
    Except.error "Extracted boundaries are different shapes"
  else
    let eligible := eligibleBodies sv1 sv2 b1 b2
    let label2_bodies := sortedUnique b2.data
    let merge_list :=
      ((label2_bodies.filter (fun body2 =>
        decide (body2 ≠ 0) && eligible.contains body2)).map
        (fun body2 => (bodyDictKeys b1 b2 body2).map
          (fun body1 => (body1, body2)))).flatten
    Except.ok (sv1.sv_index, merge_list.map
      (fun m => (m.1 + offsets sv1.sv_index, m.2 + offsets sv2.sv_index)))

/-- `stitcher(key_boundary)` (lines 410-490) for one boundary-key group:
exactly two contributors are required, they are ordered by subvolume index,
and their shapes must agree; otherwise an exception is raised. -/
def stitcher (offsets : Nat → Nat) (group : List (Subvolume × Arr3)) :
    Except String (Nat × List (Nat × Nat)) :=
  match group with
  | [(sva, ba), (svb, bb)] =>
    if svb.sv_index < sva.sv_index then stitcherOrdered offsets svb bb sva ba
    else stitcherOrdered offsets sva ba svb bb
  | _ => Except.error "Expects exactly two subvolumes per boundary"

/-- The pairwise merge stage over all boundary groups.  A raised exception in
any task fails the whole Spark job: no partial output is produced. -/
def stitchPairwiseStage (offsets : Nat → Nat)
    (groups : List (List (Subvolume × Arr3))) :
    Except String (List (Nat × List (Nat × Nat))) :=
  groups.mapM (stitcher offsets)

/-! ### Global reconciliation (morpho.stitch, lines 507-533) -/

/-- Lookup in a Python dict modelled as an association list. -/
def dlookup (d : List (Nat × Nat)) (k : Nat) : Option Nat :=
  (d.find? (fun p => p.1 == k)).map (fun p => p.2)

/-- Dict assignment `d[k] = v` (overwrite). -/
def dinsert (d : List (Nat × Nat)) (k v : Nat) : List (Nat × Nat) :=
  (k, v) :: d.filter (fun p => !(p.1 == k))

/-- Lookup in a dict of sets. -/
def slook (d : List (Nat × List Nat)) (k : Nat) : Option (List Nat) :=
  (d.find? (fun p => p.1 == k)).map (fun p => p.2)

/-- Assignment in a dict of sets. -/
def sset (d : List (Nat × List Nat)) (k : Nat) (v : List Nat) :
    List (Nat × List Nat) :=
  (k, v) :: d.filter (fun p => !(p.1 == k))

/-- `d[k].add(t)` on a dict of sets (creating the entry when missing). -/
def sadd (d : List (Nat × List Nat)) (k t : Nat) : List (Nat × List Nat) :=
  let cur := (slook d k).getD []
  if t ∈ cur then d else sset d k (cur ++ [t])

/-- The reconciliation state: `body1body2` (member to representative) and
`body2body1` (representative to known members). -/
structure RecState where
  b12 : List (Nat × Nat)
  b21 : List (Nat × List Nat)
deriving DecidableEq

/-- `body1` of one merge edge: the first endpoint resolved one step through
`body1body2` (lines 512-515). -/
def mBody1 (st : RecState) (m : Nat × Nat) : Nat := (dlookup st.b12 m.1).getD m.1

/-- `body2` of one merge edge: the second endpoint resolved one step through
`body1body2` (lines 516-518). -/
def mBody2 (st : RecState) (m : Nat × Nat) : Nat := (dlookup st.b12 m.2).getD m.2

/-- `body2body1` after the entry for `body2` has been created if missing
(lines 520-521) and `body1` added to it (line 524). -/
def mB21b (st : RecState) (m : Nat × Nat) : List (Nat × List Nat) :=
  sadd (if (slook st.b21 (mBody2 st m)).isSome then st.b21
        else st.b21 ++ [(mBody2 st m, [])])
    (mBody2 st m) (mBody1 st m)

/-- The members of `body2body1[body1]` iterated by the redirect loop
(lines 528-531); the empty list both when the key is absent (the `if body1
in body2body1` test fails) and when its set is empty. -/
def mMembers (st : RecState) (m : Nat × Nat) : List Nat :=
  (slook (mB21b st m) (mBody1 st m)).getD []

/-- Processing of one merge edge (lines 511-531): resolve both endpoints one
step through `body1body2`, record `body1` under `body2`, map `body1` to
`body2`, and redirect every known member of `body1` to `body2`. -/
def applyMerger (st : RecState) (m : Nat × Nat) : RecState :=
  (mMembers st m).foldl
    (fun s t => ⟨dinsert s.b12 t (mBody2 st m), sadd s.b21 (mBody2 st m) t⟩)
    ⟨dinsert st.b12 (mBody1 st m) (mBody2 st m), mB21b st m⟩

/-- Global reconciliation: fold the collected merge edges in arrival order
(lines 507-531).  No sorting is applied to the merge list beforehand. -/
def reconcile (merge_list : List (Nat × Nat)) : RecState :=
  merge_list.foldl applyMerger ⟨[], []⟩

/-- The final global equivalence map `body2body = zip(body1body2.keys(),
body1body2.values())` (line 533), as an association list. -/
def body1body2 (merge_list : List (Nat × Nat)) : List (Nat × Nat) :=
  (reconcile merge_list).b12

/-- A label is a representative of the reconciliation state: it has no
`body1body2` entry, or maps to itself. -/
def IsRep (st : RecState) (y : Nat) : Prop :=
  dlookup st.b12 y = none ∨ dlookup st.b12 y = some y

/-- Invariant of the reconciliation loop: every mapped value is a
representative; every key is recorded among its value's members; the
members recorded under a representative all map to that representative. -/
def RecInv (st : RecState) : Prop :=
  (∀ x y, dlookup st.b12 x = some y → IsRep st y) ∧
  (∀ x y, dlookup st.b12 x = some y → x ∈ (slook st.b21 y).getD []) ∧
  (∀ a, IsRep st a → ∀ t ∈ (slook st.b21 a).getD [],
    dlookup st.b12 t = some a)

/-! ### Relabel application (morpho.relabel, lines 540-570) -/

/-- `relabel` for one subvolume: add the block offset, restore background 0,
build the identity mapping over the volume's labels, override it by the
broadcast merge map where defined, and apply it. -/
def relabel (offsets : Nat → Nat) (master_merge_list : List (Nat × Nat))
    (sv : Subvolume) (labels : List Nat) : List Nat :=
  let offset := offsets sv.sv_index
  let labels2 := labels.map (fun v =>
    if v + offset = offset then 0 else v + offset)
  let mapping_col := sortedUnique labels2
  let label_mappings := mapping_col.map (fun v => (v, v))
  let lm := master_merge_list.foldl
    (fun d m => if (dlookup d m.1).isSome then dinsert d m.1 m.2 else d)
    label_mappings
  labels2.map (fun v => (dlookup lm v).getD v)

/-! ### Concrete scenarios used by the end-to-end checks -/

/-- Block A of the two-block stitching scenario: spatial index 1, box
x in [0,4), y in [0,4), z in [0,4). -/
def scSvA : Subvolume := ⟨1, ⟨0, 4, 0, 4, 0, 4⟩, 1⟩

/-- Block B of the two-block stitching scenario: spatial index 2, box
x in [4,8), adjacent to block A across the x face. -/
def scSvB : Subvolume := ⟨2, ⟨4, 8, 0, 4, 0, 4⟩, 1⟩

/-- Offsets (0, 3) of the two-block scenario. -/
def scOffsets : Nat → Nat := fun i => if i = 1 then 0 else 3

/-- Block A's extracted 4x4x4 boundary: label 2 everywhere (B's single body
fully overlaps A's 2 at the shared face). -/
def scB1 : Arr3 := ⟨4, 4, 4, List.replicate 64 2⟩

/-- Block B's extracted 4x4x4 boundary: label 1 everywhere. -/
def scB2 : Arr3 := ⟨4, 4, 4, List.replicate 64 1⟩

/-- Block A's full label volume: labels 1 and 2. -/
def scLabelsA : List Nat := List.replicate 32 1 ++ List.replicate 32 2

/-- Block B's full label volume: label 1 everywhere. -/
def scLabelsB : List Nat := List.replicate 64 1

/-- The split scenario volume: label 5 in two pieces of 100 and 30 voxels,
prior maximum label 9. -/
def scSplitL : List Nat :=
  0 :: List.replicate 100 5 ++ List.replicate 30 5 ++ [9]

/-- A connected-components labeling of `scSplitL`: the two pieces of label 5
become components 1 and 2, label 9 becomes component 3. -/
def scSplitS : List Nat :=
  0 :: List.replicate 100 1 ++ List.replicate 30 2 ++ [3]

/-! ## Theorems -/

/-! ### List helpers -/

theorem le_maxL {l : List Nat} {a : Nat} (h : a ∈ l) : a ≤ maxL l := by
  induction l with
  | nil => cases h
  | cons b t ih =>
    rcases List.mem_cons.mp h with h1 | h2
    · simp [maxL, h1, Nat.le_max_left]
    · exact le_trans (ih h2) (by simp [maxL, Nat.le_max_right])

theorem maxL_le_iff {l : List Nat} {b : Nat} :
    maxL l ≤ b ↔ ∀ a ∈ l, a ≤ b := by
  induction l with
  | nil => simp [maxL]
  | cons c t ih =>
    simp only [maxL, List.foldr_cons, max_le_iff, List.mem_cons]
    constructor
    · rintro ⟨h1, h2⟩ a (rfl | ha)
      · exact h1
      · exact (ih.mp h2) a ha
    · intro h
      exact ⟨h c (Or.inl rfl), ih.mpr (fun a ha => h a (Or.inr ha))⟩

theorem maxL_mem {l : List Nat} (h : maxL l ≠ 0) : maxL l ∈ l := by
  induction l with
  | nil => simp [maxL] at h
  | cons b t ih =>
    simp only [maxL, List.foldr_cons] at h ⊢
    rcases Nat.le_total b (List.foldr max 0 t) with hle | hle
    · rw [Nat.max_eq_right hle] at h ⊢
      exact List.mem_cons_of_mem _ (ih h)
    · rw [Nat.max_eq_left hle] at h ⊢
      exact List.mem_cons_self _ _

/-- Elements of a list are bounded by `maxL`. -/
theorem getD_le_maxL {l : List Nat} {i : Nat} (h : i < l.length) :
    l.getD i 0 ≤ maxL l :=
  le_maxL (by rw [List.getD_eq_getElem l 0 h]; exact List.getElem_mem h)

theorem getD_mem {l : List Nat} {i : Nat} (h : i < l.length) :
    l.getD i 0 ∈ l := by
  rw [List.getD_eq_getElem l 0 h]; exact List.getElem_mem h

/-- In a strictly sorted list, the element at the index given by the number
of strictly smaller elements is the element itself. -/
theorem rank_getD {l : List Nat} (hs : l.Pairwise (· < ·)) {v : Nat} (hv : v ∈ l) :
    l.getD (l.countP (fun d => decide (d < v))) 0 = v := by
  induction l with
  | nil => cases hv
  | cons a t ih =>
    rcases List.pairwise_cons.mp hs with ⟨ha, hp⟩
    rcases List.mem_cons.mp hv with rfl | hvt
    · have h0 : t.countP (fun d => decide (d < v)) = 0 :=
        List.countP_eq_zero.mpr (fun x hx => by
          simp [Nat.not_lt.mpr (le_of_lt (ha x hx))])
      simp [List.countP_cons, h0]
    · have hav : a < v := ha v hvt
      have : (a :: t).countP (fun d => decide (d < v)) =
          t.countP (fun d => decide (d < v)) + 1 := by
        simp [List.countP_cons, hav]
      rw [this, List.getD_cons_succ]
      exact ih hp hvt

/-- In a strictly sorted list, the number of elements strictly smaller than
the element at index `i` is `i`. -/
theorem getD_rank {l : List Nat} (hs : l.Pairwise (· < ·)) {i : Nat}
    (hi : i < l.length) :
    l.countP (fun d => decide (d < l.getD i 0)) = i := by
  induction l generalizing i with
  | nil => simp at hi
  | cons a t ih =>
    rcases List.pairwise_cons.mp hs with ⟨ha, hp⟩
    match i with
    | 0 =>
      have h0 : t.countP (fun d => decide (d < (a :: t).getD 0 0)) = 0 :=
        List.countP_eq_zero.mpr (fun x hx => by
          simp [List.getD_cons_zero, Nat.not_lt.mpr (le_of_lt (ha x hx))])
      simp only [List.getD_cons_zero] at h0 ⊢
      simp [List.countP_cons, h0]
    | j + 1 =>
      have hj : j < t.length := by simpa using hi
      have hmem : t.getD j 0 ∈ t := getD_mem hj
      have hav : a < t.getD j 0 := ha _ hmem
      rw [List.getD_cons_succ, List.countP_cons, ih hp hj]
      have hav2 : a < t[j]?.getD 0 := by
        simpa [List.getD_eq_getElem?_getD] using hav
      simp [hav2]

/-- Strictly sorted lists have no duplicates. -/
theorem pairwise_lt_nodup {l : List Nat} (hs : l.Pairwise (· < ·)) : l.Nodup :=
  hs.imp Nat.ne_of_lt

theorem mem_sortedUnique {l : List Nat} {v : Nat} :
    v ∈ sortedUnique l ↔ v ∈ l := by
  simp only [sortedUnique, List.mem_filter, List.mem_range]
  constructor
  · rintro ⟨-, h⟩
    exact List.elem_iff.mp h
  · intro h
    exact ⟨Nat.lt_succ_of_le (le_maxL h), List.elem_iff.mpr h⟩

theorem sortedUnique_pairwise (l : List Nat) :
    (sortedUnique l).Pairwise (· < ·) :=
  (List.pairwise_lt_range _).filter _

/-! ### Offset assignment -/

theorem blockOffset_mono (maxIds : List Nat) {i j : Nat} (h : i ≤ j) :
    blockOffset maxIds i ≤ blockOffset maxIds j := by
  obtain ⟨k, rfl⟩ := Nat.le.dest h
  unfold blockOffset
  rw [List.take_add, List.sum_append]
  exact Nat.le_add_right _ _

theorem blockOffset_succ (maxIds : List Nat) {i : Nat} (h : i < maxIds.length) :
    blockOffset maxIds (i + 1) = blockOffset maxIds i + maxIds.getD i 0 := by
  unfold blockOffset
  rw [List.getD_eq_getElem _ _ h]
  exact List.sum_take_succ _ _ h

theorem offset_label_lt {maxIds : List Nat} {i j a b : Nat}
    (hj : i < j) (hi : i < maxIds.length)
    (ha2 : a ≤ maxIds.getD i 0) (hb1 : 1 ≤ b) :
    a + blockOffset maxIds i < b + blockOffset maxIds j := by
  have h1 : a + blockOffset maxIds i ≤ blockOffset maxIds (i + 1) := by
    rw [blockOffset_succ maxIds hi]
    omega
  have h2 : blockOffset maxIds (i + 1) ≤ blockOffset maxIds j :=
    blockOffset_mono maxIds hj
  omega

/-! ### Searching over `List.range`: `find?` returns the least witness. -/

theorem find?_range_spec {n : Nat} {p : Nat → Bool} {c : Nat}
    (hc : (List.range n).find? p = some c) :
    c < n ∧ p c = true ∧ ∀ d, d < c → p d = false := by
  obtain ⟨hpc, as, bs, heq, hpre⟩ := List.find?_eq_some.mp hc
  have hcn : c < n := List.mem_range.mp (List.mem_of_find?_eq_some hc)
  refine ⟨hcn, hpc, ?_⟩
  have hlen : as.length < n := by
    have := congrArg List.length heq
    simp at this
    omega
  have hc_eq : c = as.length := by
    have h1 : (List.range n)[as.length]? = some c := by
      rw [heq, List.getElem?_append_right (Nat.le_refl _)]
      simp
    rw [List.getElem?_range hlen] at h1
    exact (Option.some_inj.mp h1).symm
  have has : as = List.range as.length := by
    have h2 : (as ++ c :: bs).take as.length = as := List.take_left as _
    rw [← heq, List.take_range, Nat.min_eq_left (Nat.le_of_lt hlen)] at h2
    exact h2.symm
  intro d hd
  have hdas : d ∈ as := by
    rw [has, List.mem_range]
    omega
  have := hpre d hdas
  simpa using this

theorem find?_range_isSome {n : Nat} {p : Nat → Bool}
    (hx : ∃ x, x < n ∧ p x = true) :
    ((List.range n).find? p).isSome = true := by
  obtain ⟨x, hxn, hpx⟩ := hx
  exact List.find?_isSome.mpr ⟨x, List.mem_range.mpr hxn, hpx⟩

/-! ### Row argmax -/

/-- The dense row argmax attains the row maximum and every smaller column is
strictly below it (numpy first-occurrence argmax). -/
theorem npRowArgmax_spec {row : List Nat} (h : 0 < row.length) :
    npRowArgmax row < row.length ∧
    row.getD (npRowArgmax row) 0 = maxL row ∧
    ∀ c, c < npRowArgmax row → row.getD c 0 < maxL row := by
  have hex : ∃ x, x < row.length ∧ (row.getD x 0 == maxL row) = true := by
    by_cases h0 : maxL row = 0
    · refine ⟨0, h, ?_⟩
      have : row.getD 0 0 ≤ maxL row := getD_le_maxL h
      simp only [beq_iff_eq]
      omega
    · obtain ⟨i, hi, hgi⟩ := List.mem_iff_getElem.mp (maxL_mem h0)
      refine ⟨i, hi, ?_⟩
      rw [List.getD_eq_getElem _ _ hi]
      simpa using hgi
  have hsome := find?_range_isSome hex
  obtain ⟨c, hc⟩ := Option.isSome_iff_exists.mp hsome
  obtain ⟨hcn, hpc, hmin⟩ := find?_range_spec hc
  have hval : npRowArgmax row = c := by
    unfold npRowArgmax
    rw [hc]
    rfl
  rw [hval]
  refine ⟨hcn, by simpa using hpc, ?_⟩
  intro d hd
  have := hmin d hd
  have hdn : d < row.length := lt_trans hd hcn
  have hle : row.getD d 0 ≤ maxL row := getD_le_maxL hdn
  simp only [beq_iff_eq] at this
  cases Nat.lt_or_ge (row.getD d 0) (maxL row) with
  | inl hlt => exact hlt
  | inr hge => exact absurd (Nat.le_antisymm hle hge) (by simpa using this)

/-- Distinctness of `(row, col)` keys under row-major sorting. -/
theorem rowmajor_unique {entries : List (Nat × Nat × Nat)}
    (h : RowMajorSorted entries) {e e' : Nat × Nat × Nat}
    (he : e ∈ entries) (he' : e' ∈ entries)
    (hk1 : e.1 = e'.1) (hk2 : e.2.1 = e'.2.1) : e = e' := by
  induction entries with
  | nil => cases he
  | cons a t ih =>
    rcases List.pairwise_cons.mp h with ⟨ha, hp⟩
    rcases List.mem_cons.mp he with rfl | het
    · rcases List.mem_cons.mp he' with rfl | he't
      · rfl
      · rcases ha e' he't with h1 | ⟨h1, h2⟩ <;> omega
    · rcases List.mem_cons.mp he' with rfl | he't
      · rcases ha e het with h1 | ⟨h1, h2⟩ <;> omega
      · exact ih hp het he't

/-- The dense value at the key of an entry of a row-major sorted table is
that entry's count. -/
theorem sparseVal_of_mem {entries : List (Nat × Nat × Nat)}
    (h : RowMajorSorted entries) {e : Nat × Nat × Nat} (he : e ∈ entries) :
    sparseVal entries e.1 e.2.1 = e.2.2 := by
  have hsome : (entries.find? (fun x => x.1 == e.1 && x.2.1 == e.2.1)).isSome = true :=
    List.find?_isSome.mpr ⟨e, he, by simp⟩
  obtain ⟨a, ha⟩ := Option.isSome_iff_exists.mp hsome
  have hpa := List.find?_some ha
  have hamem := List.mem_of_find?_eq_some ha
  simp only [Bool.and_eq_true, beq_iff_eq] at hpa
  have : a = e := rowmajor_unique h hamem he hpa.1 hpa.2
  unfold sparseVal
  rw [ha, this]
  rfl

/-- When a row-col key is absent from the table the dense value is 0. -/
theorem sparseVal_of_not_mem {entries : List (Nat × Nat × Nat)} {r c : Nat}
    (h : ∀ e ∈ entries, ¬(e.1 = r ∧ e.2.1 = c)) :
    sparseVal entries r c = 0 := by
  have : entries.find? (fun x => x.1 == r && x.2.1 == c) = none := by
    rw [List.find?_eq_none]
    intro x hx
    simp only [Bool.and_eq_true, beq_iff_eq]
    exact fun hc => h x hx hc
  unfold sparseVal
  rw [this]
  rfl

/-- The fold of `_sparse_row_argmax` decomposes per row. -/
theorem sparse_fold_getD {entries : List (Nat × Nat × Nat)}
    {st : List (Nat × Nat)} {r : Nat} (hr : r < st.length)
    (hrows : ∀ e ∈ entries, e.1 < st.length) :
    (entries.foldl sparseArgmaxStep st).getD r (0, 0) =
      (sparseRowEntries entries r).foldl rowStep (st.getD r (0, 0)) := by
  induction entries generalizing st with
  | nil => simp [sparseRowEntries]
  | cons e rest ih =>
    have hlen : (sparseArgmaxStep st e).length = st.length := by
      unfold sparseArgmaxStep
      split <;> simp
    have hrest : ∀ x ∈ rest, x.1 < (sparseArgmaxStep st e).length := by
      rw [hlen]; exact fun x hx => hrows x (List.mem_cons_of_mem _ hx)
    rw [List.foldl_cons, ih (by rw [hlen]; exact hr) hrest]
    by_cases hre : e.1 = r
    · have hfilter : sparseRowEntries (e :: rest) r =
          e :: sparseRowEntries rest r := by
        simp [sparseRowEntries, List.filter_cons, hre]
      rw [hfilter, List.foldl_cons]
      congr 1
      subst hre
      show (sparseArgmaxStep st e).getD e.1 (0, 0) = rowStep (st.getD e.1 (0, 0)) e
      unfold sparseArgmaxStep rowStep
      by_cases hf : (st.getD e.1 (0, 0)).1 < e.2.2
      · rw [if_pos hf, if_pos hf, List.getD_eq_getElem?_getD,
          List.getElem?_set_self hr]
        rfl
      · rw [if_neg hf, if_neg hf]
    · have hfilter : sparseRowEntries (e :: rest) r = sparseRowEntries rest r := by
        simp [sparseRowEntries, List.filter_cons, hre]
      rw [hfilter]
      congr 1
      unfold sparseArgmaxStep
      split
      · rw [List.getD_eq_getElem?_getD, List.getD_eq_getElem?_getD,
          List.getElem?_set_ne (by omega)]
      · rfl

/-- Specification of the per-row fold: the state tracks the running maximum
and, because the comparison is strict and columns arrive in increasing
order, the lowest column attaining it. -/
theorem rowStep_fold_spec {res : List (Nat × Nat × Nat)} (init : Nat × Nat)
    (hsort : res.Pairwise (fun a b => a.2.1 < b.2.1))
    (hpos : ∀ e ∈ res, 0 < e.2.2) :
    (res.foldl rowStep init).1 = max init.1 (maxL (res.map (fun e => e.2.2))) ∧
    (if init.1 < maxL (res.map (fun e => e.2.2)) then
      ∃ e ∈ res, e.2.1 = (res.foldl rowStep init).2 ∧
        e.2.2 = (res.foldl rowStep init).1 ∧
        ∀ e' ∈ res, e'.2.1 < (res.foldl rowStep init).2 →
          e'.2.2 < (res.foldl rowStep init).1
    else res.foldl rowStep init = init) := by
  induction res generalizing init with
  | nil =>
    simp [maxL]
  | cons e rest ih =>
    rcases List.pairwise_cons.mp hsort with ⟨hcols, hsort'⟩
    have hpos' : ∀ x ∈ rest, 0 < x.2.2 :=
      fun x hx => hpos x (List.mem_cons_of_mem _ hx)
    have hme : maxL ((e :: rest).map (fun x => x.2.2)) =
        max e.2.2 (maxL (rest.map (fun x => x.2.2))) := by
      simp [maxL]
    rw [List.foldl_cons]
    by_cases hfire : init.1 < e.2.2
    · have hstep : rowStep init e = (e.2.2, e.2.1) := by
        unfold rowStep; simp [hfire]
      rw [hstep]
      obtain ⟨ih1, ih2⟩ := ih (e.2.2, e.2.1) hsort' hpos'
      have hproj : ((e.2.2, e.2.1) : Nat × Nat).1 = e.2.2 := rfl
      rw [hproj] at ih1 ih2
      constructor
      · rw [ih1, hme]
        omega
      · have hcond : init.1 < maxL ((e :: rest).map (fun x => x.2.2)) := by
          rw [hme]; omega
        rw [if_pos hcond]
        by_cases hrest : e.2.2 < maxL (rest.map (fun x => x.2.2))
        · rw [if_pos hrest] at ih2
          obtain ⟨a, hamem, hacol, haval, hamin⟩ := ih2
          refine ⟨a, List.mem_cons_of_mem _ hamem, hacol, haval, ?_⟩
          intro e' he' hcol
          rcases List.mem_cons.mp he' with rfl | he't
          · rw [ih1]
            omega
          · exact hamin e' he't hcol
        · rw [if_neg hrest] at ih2
          rw [ih2]
          refine ⟨e, List.mem_cons_self _ _, rfl, rfl, ?_⟩
          intro e' he' hcol
          rcases List.mem_cons.mp he' with rfl | he't
          · omega
          · exact absurd (hcols e' he't) (by omega)
    · have hstep : rowStep init e = init := by
        unfold rowStep; simp [hfire]
      rw [hstep]
      obtain ⟨ih1, ih2⟩ := ih init hsort' hpos'
      constructor
      · rw [ih1, hme]
        omega
      · rw [hme]
        by_cases hcond : init.1 < max e.2.2 (maxL (rest.map (fun x => x.2.2)))
        · rw [if_pos hcond]
          have hrest : init.1 < maxL (rest.map (fun x => x.2.2)) := by omega
          rw [if_pos hrest] at ih2
          obtain ⟨a, hamem, hacol, haval, hamin⟩ := ih2
          refine ⟨a, List.mem_cons_of_mem _ hamem, hacol, haval, ?_⟩
          intro e' he' hcol
          rcases List.mem_cons.mp he' with rfl | he't
          · rw [ih1]
            omega
          · exact hamin e' he't hcol
        · rw [if_neg hcond]
          have hrest : ¬ init.1 < maxL (rest.map (fun x => x.2.2)) := by omega
          rw [if_neg hrest] at ih2
          exact ih2

theorem sparse_fold_length (entries : List (Nat × Nat × Nat))
    (st : List (Nat × Nat)) :
    (entries.foldl sparseArgmaxStep st).length = st.length := by
  induction entries generalizing st with
  | nil => rfl
  | cons e rest ih =>
    rw [List.foldl_cons, ih]
    unfold sparseArgmaxStep
    split <;> simp

/-- `_sparse_row_argmax` on a row-major sorted table of positive counts:
for every row the returned column attains the row maximum, and every lower
column is strictly below it (so ties are broken by lowest column). -/
theorem sparseRowArgmax_spec {entries : List (Nat × Nat × Nat)} {numRows : Nat}
    (hsort : RowMajorSorted entries) (hpos : ∀ e ∈ entries, 0 < e.2.2)
    (hrows : ∀ e ∈ entries, e.1 < numRows) {r : Nat} (hr : r < numRows) :
    sparseVal entries r ((sparseRowArgmax entries numRows).getD r 0) =
      sparseRowMax entries r ∧
    ∀ c, c < (sparseRowArgmax entries numRows).getD r 0 →
      sparseVal entries r c < sparseRowMax entries r := by
  set st0 : List (Nat × Nat) := List.replicate numRows (0, 0) with hst0
  have hlen0 : st0.length = numRows := List.length_replicate _ _
  have hr0 : r < st0.length := by omega
  have hrows0 : ∀ e ∈ entries, e.1 < st0.length := by
    rw [hlen0]; exact hrows
  have hflen : (entries.foldl sparseArgmaxStep st0).length = numRows := by
    rw [sparse_fold_length, hlen0]
  have hget : (sparseRowArgmax entries numRows).getD r 0 =
      ((entries.foldl sparseArgmaxStep st0).getD r (0, 0)).2 := by
    unfold sparseRowArgmax
    rw [List.getD_eq_getElem?_getD, List.getD_eq_getElem?_getD,
      List.getElem?_map]
    rw [(List.getElem?_eq_getElem (by omega) :
      (entries.foldl sparseArgmaxStep st0)[r]? = _)]
    rfl
  have hinit : st0.getD r (0, 0) = (0, 0) := by
    rw [List.getD_eq_getElem _ _ hr0]
    simp [hst0]
  have hdecomp := sparse_fold_getD hr0 hrows0
  rw [hinit] at hdecomp
  set res := sparseRowEntries entries r with hres
  have hressub : ∀ e ∈ res, e ∈ entries ∧ e.1 = r := by
    intro e he
    rw [hres] at he
    unfold sparseRowEntries at he
    have := List.mem_filter.mp he
    exact ⟨this.1, by simpa using this.2⟩
  have hressort : res.Pairwise (fun a b => a.2.1 < b.2.1) := by
    apply List.Pairwise.imp_of_mem ?_ (hsort.filter _)
    intro a b hma hmb hab
    have ha := (hressub a hma).2
    have hb := (hressub b hmb).2
    rcases hab with h1 | ⟨h1, h2⟩
    · omega
    · exact h2
  have hrespos : ∀ e ∈ res, 0 < e.2.2 := fun e he => hpos e (hressub e he).1
  obtain ⟨hmax, hcase⟩ := rowStep_fold_spec (0, 0) hressort hrespos
  have hz : ((0, 0) : Nat × Nat).1 = 0 := rfl
  rw [hz, Nat.zero_max] at hmax
  rw [hz] at hcase
  have hrmax : sparseRowMax entries r = maxL (res.map (fun e => e.2.2)) := rfl
  by_cases hpos' : 0 < maxL (res.map (fun e => e.2.2))
  · rw [if_pos hpos'] at hcase
    obtain ⟨a, hamem, hacol, haval, hamin⟩ := hcase
    obtain ⟨haent, har⟩ := hressub a hamem
    constructor
    · rw [hget, hdecomp, ← hacol]
      have hsv := sparseVal_of_mem hsort haent
      rw [har] at hsv
      rw [hsv, haval, hmax, hrmax]
    · intro c hc
      rw [hget, hdecomp] at hc
      by_cases hex : ∃ e ∈ entries, e.1 = r ∧ e.2.1 = c
      · obtain ⟨e, heent, her, hec⟩ := hex
        have heres : e ∈ res := by
          rw [hres]
          unfold sparseRowEntries
          exact List.mem_filter.mpr ⟨heent, by simp [her]⟩
        have hlt := hamin e heres (by rw [hec]; exact hc)
        have hsv := sparseVal_of_mem hsort heent
        rw [her, hec] at hsv
        rw [hsv, hrmax]
        rw [hmax] at hlt
        omega
      · push_neg at hex
        rw [sparseVal_of_not_mem (by
          intro e he hcon
          exact absurd hcon.2 (hex e he hcon.1)), hrmax]
        omega
  · rw [if_neg hpos'] at hcase
    have hres0 : res = [] := by
      cases hresc : res with
      | nil => rfl
      | cons e t =>
        exfalso
        have he : e ∈ res := by rw [hresc]; exact List.mem_cons_self _ _
        have h1 : 0 < e.2.2 := hrespos e he
        have h2 : e.2.2 ≤ maxL (res.map (fun x => x.2.2)) :=
          le_maxL (List.mem_map.mpr ⟨e, he, rfl⟩)
        omega
    have hnone : ∀ e ∈ entries, ¬(e.1 = r ∧ e.2.1 =
        ((sparseRowArgmax entries numRows).getD r 0)) := by
      intro e he hcon
      have : e ∈ res := by
        rw [hres]
        unfold sparseRowEntries
        exact List.mem_filter.mpr ⟨he, by simp [hcon.1]⟩
      rw [hres0] at this
      cases this
    have hval0 : sparseVal entries r ((sparseRowArgmax entries numRows).getD r 0)
        = 0 := sparseVal_of_not_mem hnone
    constructor
    · rw [hval0, hrmax, hres0]
      rfl
    · intro c hc
      exfalso
      rw [hget, hdecomp, hcase] at hc
      simp at hc

/-! ### Association-list dictionary lemmas -/

theorem find?_filter_of_imp {α : Type} (l : List α) (p q : α → Bool)
    (h : ∀ x, p x = true → q x = true) :
    (l.filter q).find? p = l.find? p := by
  induction l with
  | nil => rfl
  | cons a t ih =>
    rw [List.filter_cons]
    by_cases hqa : q a = true
    · rw [if_pos hqa, List.find?_cons, List.find?_cons]
      cases hpa : p a
      · exact ih
      · rfl
    · rw [if_neg hqa]
      have hpa : p a = false := by
        cases hpa : p a
        · rfl
        · exact absurd (h a hpa) hqa
      rw [List.find?_cons, hpa]
      exact ih

theorem dlookup_dinsert_self (d : List (Nat × Nat)) (k v : Nat) :
    dlookup (dinsert d k v) k = some v := by
  unfold dlookup dinsert
  rw [List.find?_cons]
  simp

theorem dlookup_dinsert_ne (d : List (Nat × Nat)) {k k' : Nat} (h : k' ≠ k)
    (v : Nat) : dlookup (dinsert d k v) k' = dlookup d k' := by
  unfold dlookup dinsert
  rw [List.find?_cons]
  have : (((k, v) : Nat × Nat).1 == k') = false := by simpa using (Ne.symm h)
  rw [this]
  congr 1
  apply find?_filter_of_imp
  intro x hx
  simp only [beq_iff_eq] at hx
  simp [hx, h]

theorem slook_sset_self (d : List (Nat × List Nat)) (k : Nat) (v : List Nat) :
    slook (sset d k v) k = some v := by
  unfold slook sset
  rw [List.find?_cons]
  simp

theorem slook_sset_ne (d : List (Nat × List Nat)) {k k' : Nat} (h : k' ≠ k)
    (v : List Nat) : slook (sset d k v) k' = slook d k' := by
  unfold slook sset
  rw [List.find?_cons]
  have : (((k, v) : Nat × List Nat).1 == k') = false := by simpa using (Ne.symm h)
  rw [this]
  congr 1
  apply find?_filter_of_imp
  intro x hx
  simp only [beq_iff_eq] at hx
  simp [hx, h]

theorem slook_sadd_ne (d : List (Nat × List Nat)) {k k' : Nat} (h : k' ≠ k)
    (t : Nat) : slook (sadd d k t) k' = slook d k' := by
  simp only [sadd]
  split
  · rfl
  · exact slook_sset_ne d h _

theorem mem_slook_sadd_self (d : List (Nat × List Nat)) (k t x : Nat) :
    x ∈ (slook (sadd d k t) k).getD [] ↔
      x ∈ (slook d k).getD [] ∨ x = t := by
  simp only [sadd]
  split
  · constructor
    · exact fun hx => Or.inl hx
    · rintro (hx | rfl)
      · exact hx
      · assumption
  · rw [slook_sset_self]
    simp

theorem slook_append_unit (d : List (Nat × List Nat)) (k2 k : Nat) :
    (slook (d ++ [(k2, [])]) k).getD [] = (slook d k).getD [] := by
  unfold slook
  rw [List.find?_append]
  cases hf : d.find? (fun p => p.1 == k) with
  | none =>
    simp only [Option.or]
    cases hg : List.find? (fun p => p.1 == k) [(k2, [])] with
    | none => rfl
    | some v =>
      have hv := List.mem_of_find?_eq_some hg
      simp only [List.mem_singleton] at hv
      subst hv
      rfl
  | some v => rfl

/-! ### Global reconciliation: the idempotence invariant -/

theorem redirect_b12_lookup (members : List Nat) (base : RecState)
    (body2 x : Nat) :
    dlookup (members.foldl
      (fun s t => ⟨dinsert s.b12 t body2, sadd s.b21 body2 t⟩) base).b12 x =
      if x ∈ members then some body2 else dlookup base.b12 x := by
  induction members generalizing base with
  | nil => simp
  | cons t rest ih =>
    rw [List.foldl_cons, ih]
    by_cases hxr : x ∈ rest
    · rw [if_pos hxr, if_pos (List.mem_cons_of_mem _ hxr)]
    · rw [if_neg hxr]
      by_cases hxt : x = t
      · subst hxt
        rw [if_pos (List.mem_cons_self _ _)]
        exact dlookup_dinsert_self _ _ _
      · rw [if_neg (by simp [hxt, hxr])]
        exact dlookup_dinsert_ne _ hxt _

theorem redirect_b21_mem (members : List Nat) (base : RecState)
    (body2 k y : Nat) :
    y ∈ (slook (members.foldl
      (fun s t => ⟨dinsert s.b12 t body2, sadd s.b21 body2 t⟩) base).b21
        k).getD [] ↔
      y ∈ (slook base.b21 k).getD [] ∨ (k = body2 ∧ y ∈ members) := by
  induction members generalizing base with
  | nil => simp
  | cons t rest ih =>
    rw [List.foldl_cons, ih]
    by_cases hk : k = body2
    · subst hk
      rw [mem_slook_sadd_self]
      constructor
      · rintro ((hy | rfl) | ⟨-, hy⟩)
        · exact Or.inl hy
        · exact Or.inr ⟨rfl, List.mem_cons_self _ _⟩
        · exact Or.inr ⟨rfl, List.mem_cons_of_mem _ hy⟩
      · rintro (hy | ⟨-, hy⟩)
        · exact Or.inl (Or.inl hy)
        · rcases List.mem_cons.mp hy with rfl | hy'
          · exact Or.inl (Or.inr rfl)
          · exact Or.inr ⟨rfl, hy'⟩
    · rw [slook_sadd_ne _ hk]
      constructor
      · rintro (hy | ⟨hk', hy⟩)
        · exact Or.inl hy
        · exact absurd hk' hk
      · rintro (hy | ⟨hk', hy⟩)
        · exact Or.inl hy
        · exact absurd hk' hk

theorem mem_mB21b (st : RecState) (m : Nat × Nat) (k y : Nat) :
    y ∈ (slook (mB21b st m) k).getD [] ↔
      y ∈ (slook st.b21 k).getD [] ∨ (k = mBody2 st m ∧ y = mBody1 st m) := by
  unfold mB21b
  have hbase : ∀ k', (slook (if (slook st.b21 (mBody2 st m)).isSome then st.b21
      else st.b21 ++ [(mBody2 st m, [])]) k').getD [] =
      (slook st.b21 k').getD [] := by
    intro k'
    split
    · rfl
    · exact slook_append_unit _ _ _
  by_cases hk : k = mBody2 st m
  · subst hk
    rw [mem_slook_sadd_self, hbase]
    constructor
    · rintro (hy | rfl)
      · exact Or.inl hy
      · exact Or.inr ⟨rfl, rfl⟩
    · rintro (hy | ⟨-, rfl⟩)
      · exact Or.inl hy
      · exact Or.inr rfl
  · rw [slook_sadd_ne _ hk, hbase]
    constructor
    · exact fun hy => Or.inl hy
    · rintro (hy | ⟨hk', -⟩)
      · exact hy
      · exact absurd hk' hk

/-- Lookup in `body1body2` after one merge edge has been processed. -/
theorem applyMerger_b12 (st : RecState) (m : Nat × Nat) (x : Nat) :
    dlookup (applyMerger st m).b12 x =
      if x ∈ mMembers st m ∨ x = mBody1 st m then some (mBody2 st m)
      else dlookup st.b12 x := by
  unfold applyMerger
  rw [redirect_b12_lookup]
  by_cases hm : x ∈ mMembers st m
  · rw [if_pos hm, if_pos (Or.inl hm)]
  · rw [if_neg hm]
    by_cases hb : x = mBody1 st m
    · subst hb
      rw [if_pos (Or.inr rfl)]
      exact dlookup_dinsert_self _ _ _
    · rw [if_neg (by tauto)]
      exact dlookup_dinsert_ne _ hb _

/-- Membership in `body2body1` after one merge edge has been processed. -/
theorem applyMerger_b21 (st : RecState) (m : Nat × Nat) (k y : Nat) :
    y ∈ (slook (applyMerger st m).b21 k).getD [] ↔
      y ∈ (slook st.b21 k).getD [] ∨
        (k = mBody2 st m ∧ (y = mBody1 st m ∨ y ∈ mMembers st m)) := by
  unfold applyMerger
  rw [redirect_b21_mem]
  show y ∈ (slook (mB21b st m) k).getD [] ∨ _ ↔ _
  rw [mem_mB21b]
  tauto

theorem resolve_isRep {st : RecState} (h : RecInv st) (x : Nat) :
    IsRep st ((dlookup st.b12 x).getD x) := by
  cases hx : dlookup st.b12 x with
  | none => exact Or.inl hx
  | some y => exact h.1 x y hx

/-- Every member iterated by the redirect loop either maps to `body1` in the
pre-state or is `body1` itself. -/
theorem mMembers_spec {st : RecState} (h : RecInv st) (m : Nat × Nat)
    {t : Nat} (ht : t ∈ mMembers st m) :
    dlookup st.b12 t = some (mBody1 st m) ∨ t = mBody1 st m := by
  have := (mem_mB21b st m (mBody1 st m) t).mp ht
  rcases this with hmem | ⟨-, rfl⟩
  · exact Or.inl (h.2.2 (mBody1 st m) (resolve_isRep h m.1) t hmem)
  · exact Or.inr rfl

/-- Keys mapping to `body1` in the pre-state are all iterated by the
redirect loop. -/
theorem mem_mMembers_of_b12 {st : RecState} (h : RecInv st) (m : Nat × Nat)
    {x : Nat} (hx : dlookup st.b12 x = some (mBody1 st m)) :
    x ∈ mMembers st m := by
  have := h.2.1 x (mBody1 st m) hx
  exact (mem_mB21b st m (mBody1 st m) x).mpr (Or.inl this)

/-- The reconciliation invariant is preserved by processing one edge. -/
theorem recInv_applyMerger {st : RecState} (h : RecInv st) (m : Nat × Nat) :
    RecInv (applyMerger st m) := by
  obtain ⟨hI, hK, hJ⟩ := h
  have hrep1 : IsRep st (mBody1 st m) := resolve_isRep ⟨hI, hK, hJ⟩ m.1
  have hrep2 : IsRep st (mBody2 st m) := resolve_isRep ⟨hI, hK, hJ⟩ m.2
  have hrep2' : IsRep (applyMerger st m) (mBody2 st m) := by
    unfold IsRep
    rw [applyMerger_b12]
    by_cases hb : mBody2 st m ∈ mMembers st m ∨ mBody2 st m = mBody1 st m
    · rw [if_pos hb]
      exact Or.inr rfl
    · rw [if_neg hb]
      exact hrep2
  refine ⟨?_, ?_, ?_⟩
  · -- values of the new map are representatives of the new state
    intro x y hxy
    rw [applyMerger_b12] at hxy
    by_cases hx : x ∈ mMembers st m ∨ x = mBody1 st m
    · rw [if_pos hx] at hxy
      cases hxy
      exact hrep2'
    · rw [if_neg hx] at hxy
      -- the old entry x ↦ y survives; y cannot have been redirected
      have hyrep : IsRep st y := hI x y hxy
      have hy1 : y ≠ mBody1 st m := by
        rintro rfl
        exact hx (Or.inl (mem_mMembers_of_b12 ⟨hI, hK, hJ⟩ m hxy))
      have hym : y ∉ mMembers st m := by
        intro hy
        rcases mMembers_spec ⟨hI, hK, hJ⟩ m hy with hmap | heq
        · rcases hyrep with hnone | hself
          · rw [hmap] at hnone; cases hnone
          · rw [hmap] at hself
            exact hy1 (Option.some_inj.mp hself).symm
        · exact hy1 heq
      unfold IsRep
      rw [applyMerger_b12, if_neg (by tauto)]
      exact hyrep
  · -- every key is recorded among its value's members
    intro x y hxy
    rw [applyMerger_b12] at hxy
    by_cases hx : x ∈ mMembers st m ∨ x = mBody1 st m
    · rw [if_pos hx] at hxy
      cases hxy
      rw [applyMerger_b21]
      exact Or.inr ⟨rfl, hx.symm⟩
    · rw [if_neg hx] at hxy
      rw [applyMerger_b21]
      exact Or.inl (hK x y hxy)
  · -- members recorded under a new-state representative map to it
    intro a harep t ht
    rw [applyMerger_b21] at ht
    by_cases ha2 : a = mBody2 st m
    · subst ha2
      rcases ht with hold | ⟨-, hnew⟩
      · -- an old member of body2's class
        have hmap : dlookup st.b12 t = some (mBody2 st m) := hJ _ hrep2 t hold
        rw [applyMerger_b12]
        by_cases hx : t ∈ mMembers st m ∨ t = mBody1 st m
        · rw [if_pos hx]
        · rw [if_neg hx]
          exact hmap
      · rw [applyMerger_b12, if_pos hnew.symm]
    · -- a representative untouched by this edge
      have hold : t ∈ (slook st.b21 a).getD [] := by
        rcases ht with hold | ⟨ha, -⟩
        · exact hold
        · exact absurd ha ha2
      have hanot : ¬(a ∈ mMembers st m ∨ a = mBody1 st m) := by
        intro hx
        rcases harep with hnone | hself
        · rw [applyMerger_b12, if_pos hx] at hnone
          cases hnone
        · rw [applyMerger_b12, if_pos hx] at hself
          exact ha2 (Option.some_inj.mp hself).symm
      have harep' : IsRep st a := by
        rcases harep with hnone | hself
        · rw [applyMerger_b12, if_neg hanot] at hnone
          exact Or.inl hnone
        · rw [applyMerger_b12, if_neg hanot] at hself
          exact Or.inr hself
      have hmap : dlookup st.b12 t = some a := hJ a harep' t hold
      rw [applyMerger_b12]
      by_cases hx : t ∈ mMembers st m ∨ t = mBody1 st m
      · exfalso
        rcases hx with hm | rfl
        · rcases mMembers_spec ⟨hI, hK, hJ⟩ m hm with hmap1 | heq
          · rw [hmap] at hmap1
            exact hanot (Or.inr (Option.some_inj.mp hmap1))
          · subst heq
            rcases hrep1 with hnone | hself
            · rw [hmap] at hnone; cases hnone
            · rw [hmap] at hself
              exact hanot (Or.inr (Option.some_inj.mp hself))
        · rcases hrep1 with hnone | hself
          · rw [hmap] at hnone; cases hnone
          · rw [hmap] at hself
            exact hanot (Or.inr (Option.some_inj.mp hself))
      · rw [if_neg hx]
        exact hmap

theorem recInv_empty : RecInv ⟨[], []⟩ := by
  refine ⟨?_, ?_, ?_⟩
  · intro x y hxy
    simp [dlookup] at hxy
  · intro x y hxy
    simp [dlookup] at hxy
  · intro a _ t ht
    simp [slook] at ht

theorem recInv_reconcile (ml : List (Nat × Nat)) : RecInv (reconcile ml) := by
  unfold reconcile
  have : ∀ st : RecState, RecInv st → RecInv (ml.foldl applyMerger st) := by
    induction ml with
    | nil => exact fun st h => h
    | cons e rest ih =>
      intro st h
      rw [List.foldl_cons]
      exact ih _ (recInv_applyMerger h e)
  exact this _ recInv_empty

/-! ### Stitcher: error cases and nonzero merge endpoints -/

theorem stitcher_not_two {offsets : Nat → Nat}
    {group : List (Subvolume × Arr3)} (h : group.length ≠ 2) :
    stitcher offsets group =
      Except.error "Expects exactly two subvolumes per boundary" := by
  match group with
  | [] => rfl
  | [a] => rfl
  | [a, b] => exact absurd rfl h
  | a :: b :: c :: rest => rfl

theorem stitcher_shape_mismatch {offsets : Nat → Nat} {sv1 sv2 : Subvolume}
    {b1 b2 : Arr3} (h : b1.shape ≠ b2.shape) :
    stitcher offsets [(sv1, b1), (sv2, b2)] =
      Except.error "Extracted boundaries are different shapes" := by
  show (if sv2.sv_index < sv1.sv_index then stitcherOrdered offsets sv2 b2 sv1 b1
    else stitcherOrdered offsets sv1 b1 sv2 b2) = _
  split
  · unfold stitcherOrdered
    rw [if_pos (Ne.symm h)]
  · unfold stitcherOrdered
    rw [if_pos h]

theorem mapM_loop_error {α β : Type} (f : α → Except String β) (l : List α)
    (acc : List β) {x : α} (hx : x ∈ l) {msg : String}
    (hf : f x = Except.error msg) :
    ∃ m, List.mapM.loop f l acc = Except.error m := by
  induction l generalizing acc with
  | nil => cases hx
  | cons a t ih =>
    rcases List.mem_cons.mp hx with rfl | hxt
    · exact ⟨msg, by simp [List.mapM.loop, hf, Bind.bind, Except.bind]⟩
    · cases hfa : f a with
      | error m =>
        exact ⟨m, by simp [List.mapM.loop, hfa, Bind.bind, Except.bind]⟩
      | ok b =>
        obtain ⟨m, hm⟩ := ih (b :: acc) hxt
        exact ⟨m, by simp [List.mapM.loop, hfa, Bind.bind, Except.bind, hm]⟩

/-- A failing group fails the whole pairwise merge stage. -/
theorem stitchPairwiseStage_error {offsets : Nat → Nat}
    {groups : List (List (Subvolume × Arr3))}
    {g : List (Subvolume × Arr3)} (hg : g ∈ groups) {msg : String}
    (herr : stitcher offsets g = Except.error msg) :
    ∃ m, stitchPairwiseStage offsets groups = Except.error m := by
  unfold stitchPairwiseStage List.mapM
  exact mapM_loop_error _ _ _ hg herr

theorem mem_foldl_firstOcc {l acc0 : List Nat} {x : Nat}
    (hx : x ∈ l.foldl (fun acc v => if v ∈ acc then acc else acc ++ [v]) acc0) :
    x ∈ acc0 ∨ x ∈ l := by
  induction l generalizing acc0 with
  | nil => exact Or.inl hx
  | cons v t ih =>
    rw [List.foldl_cons] at hx
    rcases ih hx with hacc | ht
    · by_cases hv : v ∈ acc0
      · rw [if_pos hv] at hacc
        exact Or.inl hacc
      · rw [if_neg hv] at hacc
        rcases List.mem_append.mp hacc with h1 | h2
        · exact Or.inl h1
        · simp only [List.mem_singleton] at h2
          subst h2
          exact Or.inr (List.mem_cons_self _ _)
    · exact Or.inr (List.mem_cons_of_mem _ ht)

theorem bodyDictKeys_nonzero {b1 b2 : Arr3} {body2 x : Nat}
    (hx : x ∈ bodyDictKeys b1 b2 body2) : x ≠ 0 := by
  unfold bodyDictKeys at hx
  rcases mem_foldl_firstOcc hx with h0 | hmem
  · cases h0
  · obtain ⟨p, -, hp⟩ := List.mem_filterMap.mp hmem
    simp only at hp
    split at hp
    · rename_i hcond
      cases hp
      exact hcond.1
    · cases hp

/-- Merge edges returned by the ordered stitcher body have nonzero
endpoints (they are nonzero local labels plus nonnegative offsets). -/
theorem stitcherOrdered_nonzero {offsets : Nat → Nat} {sv1 sv2 : Subvolume}
    {b1 b2 : Arr3} {k : Nat} {ml : List (Nat × Nat)}
    (h : stitcherOrdered offsets sv1 b1 sv2 b2 = Except.ok (k, ml)) :
    ∀ p ∈ ml, p.1 ≠ 0 ∧ p.2 ≠ 0 := by
  unfold stitcherOrdered at h
  by_cases hs : b1.shape ≠ b2.shape
  · rw [if_pos hs] at h
    cases h
  · rw [if_neg hs] at h
    simp only [Except.ok.injEq, Prod.mk.injEq] at h
    obtain ⟨-, hml⟩ := h
    subst hml
    intro p hp
    obtain ⟨m, hm, rfl⟩ := List.mem_map.mp hp
    obtain ⟨l, hl, hml⟩ := List.mem_flatten.mp hm
    obtain ⟨body2, hb2, rfl⟩ := List.mem_map.mp hl
    obtain ⟨body1, hb1, rfl⟩ := List.mem_map.mp hml
    have h2 : body2 ≠ 0 := by
      have := (List.mem_filter.mp hb2).2
      simp only [Bool.and_eq_true, decide_eq_true_eq] at this
      exact this.1
    have h1 : body1 ≠ 0 := bodyDictKeys_nonzero hb1
    exact ⟨by simp; omega, by simp; omega⟩

/-- Merge edges returned by the stitcher have nonzero endpoints. -/
theorem stitcher_nonzero {offsets : Nat → Nat}
    {group : List (Subvolume × Arr3)} {k : Nat} {ml : List (Nat × Nat)}
    (h : stitcher offsets group = Except.ok (k, ml)) :
    ∀ p ∈ ml, p.1 ≠ 0 ∧ p.2 ≠ 0 := by
  cases group with
  | nil => rw [stitcher_not_two (by simp)] at h; cases h
  | cons g1 rest =>
    cases rest with
    | nil => rw [stitcher_not_two (by simp)] at h; cases h
    | cons g2 rest2 =>
      cases rest2 with
      | cons g3 rest3 =>
        rw [stitcher_not_two (by simp)] at h
        cases h
      | nil =>
        obtain ⟨sva, ba⟩ := g1
        obtain ⟨svb, bb⟩ := g2
        rw [show stitcher offsets [(sva, ba), (svb, bb)] =
          (if svb.sv_index < sva.sv_index then
            stitcherOrdered offsets svb bb sva ba
          else stitcherOrdered offsets sva ba svb bb) from rfl] at h
        by_cases hlt : svb.sv_index < sva.sv_index
        · rw [if_pos hlt] at h
          exact stitcherOrdered_nonzero h
        · rw [if_neg hlt] at h
          exact stitcherOrdered_nonzero h

/-! ### Relabel: background preservation -/

theorem dlookup_id_map (l : List Nat) (x : Nat) :
    dlookup (l.map (fun v => (v, v))) x = none ∨
    dlookup (l.map (fun v => (v, v))) x = some x := by
  unfold dlookup
  cases hf : (l.map (fun v => (v, v))).find? (fun p => p.1 == x) with
  | none => exact Or.inl rfl
  | some p =>
    right
    have hp := List.find?_some hf
    have hmem := List.mem_of_find?_eq_some hf
    obtain ⟨v, hv, rfl⟩ := List.mem_map.mp hmem
    simp only [beq_iff_eq] at hp
    simp [hp]

theorem lm_fold_zero {ml : List (Nat × Nat)} (hml : ∀ p ∈ ml, p.1 ≠ 0)
    {d0 : List (Nat × Nat)}
    (h0 : dlookup d0 0 = none ∨ dlookup d0 0 = some 0) :
    dlookup (ml.foldl
      (fun d m => if (dlookup d m.1).isSome then dinsert d m.1 m.2 else d)
      d0) 0 = none ∨
    dlookup (ml.foldl
      (fun d m => if (dlookup d m.1).isSome then dinsert d m.1 m.2 else d)
      d0) 0 = some 0 := by
  induction ml generalizing d0 with
  | nil => exact h0
  | cons m rest ih =>
    rw [List.foldl_cons]
    apply ih (fun p hp => hml p (List.mem_cons_of_mem _ hp))
    split
    · rw [dlookup_dinsert_ne _ (Ne.symm (hml m (List.mem_cons_self _ _))) _]
      exact h0
    · exact h0

/-- Background voxels stay background through `relabel`, as long as no merge
edge has a background first endpoint. -/
theorem relabel_zero {offsets : Nat → Nat} {ml : List (Nat × Nat)}
    {sv : Subvolume} {labels : List Nat} (hml : ∀ p ∈ ml, p.1 ≠ 0)
    {i : Nat} (hi : i < labels.length) (hz : labels.getD i 0 = 0) :
    (relabel offsets ml sv labels).getD i 0 = 0 := by
  unfold relabel
  have hlen2 : (labels.map (fun v =>
      if v + offsets sv.sv_index = offsets sv.sv_index then 0
      else v + offsets sv.sv_index)).length = labels.length := by simp
  rw [List.getD_eq_getElem _ _ (by simpa using hi)]
  rw [List.getElem_map]
  rw [List.getElem_map]
  have hz' : labels[i] = 0 := by
    rw [List.getD_eq_getElem _ _ hi] at hz
    exact hz
  rw [hz']
  rw [if_pos (Nat.zero_add _)]
  rcases lm_fold_zero hml (dlookup_id_map (sortedUnique (labels.map (fun v =>
      if v + offsets sv.sv_index = offsets sv.sv_index then 0
      else v + offsets sv.sv_index))) 0) with hnone | hsome
  · rw [hnone]
    rfl
  · rw [hsome]
    rfl

/-! ### Contingency table -/

theorem contingency_table_isOk (v1 v2 : Arr3) :
    (contingency_table v1 v2).isOk = true ↔
      v1.data.length = v2.data.length := by
  unfold contingency_table
  by_cases h : v1.data.length = v2.data.length
  · rw [if_pos h]
    exact ⟨fun _ => h, fun _ => rfl⟩
  · rw [if_neg h]
    exact ⟨fun hh => by simp [Except.isOk, Except.toBool] at hh,
      fun hh => absurd hh h⟩

theorem mem_ct_table {v1 v2 : Arr3} {tbl : List ((Nat × Nat) × Nat)}
    (h : contingency_table v1 v2 = Except.ok tbl) {e : (Nat × Nat) × Nat} :
    e ∈ tbl ↔ ∃ a b, a < maxL v1.data + 1 ∧ b < maxL v2.data + 1 ∧
      (a, b) ∈ v1.data.zip v2.data ∧
      e = ((a, b), (v1.data.zip v2.data).countP (fun p => p == (a, b))) := by
  unfold contingency_table at h
  by_cases hlen : v1.data.length = v2.data.length
  · rw [if_pos hlen] at h
    have htbl := Except.ok.inj h
    subst htbl
    constructor
    · intro he
      obtain ⟨l, hl, hel⟩ := List.mem_flatten.mp he
      obtain ⟨a, ha, rfl⟩ := List.mem_map.mp hl
      obtain ⟨b, hb, hfb⟩ := List.mem_filterMap.mp hel
      rw [List.mem_range] at ha hb
      by_cases hmem : (a, b) ∈ v1.data.zip v2.data
      · rw [if_pos hmem] at hfb
        exact ⟨a, b, ha, hb, hmem, (Option.some_inj.mp hfb).symm⟩
      · rw [if_neg hmem] at hfb
        cases hfb
    · rintro ⟨a, b, ha, hb, hmem, rfl⟩
      refine List.mem_flatten.mpr ⟨_, List.mem_map.mpr
        ⟨a, List.mem_range.mpr ha, rfl⟩, ?_⟩
      refine List.mem_filterMap.mpr ⟨b, List.mem_range.mpr hb, ?_⟩
      rw [if_pos hmem]
  · rw [if_neg hlen] at h
    cases h

/-- On equal flattened lengths, the table returned by `contingency_table`
counts pair co-occurrences exactly. -/
theorem contingency_table_counts {v1 v2 : Arr3} {tbl : List ((Nat × Nat) × Nat)}
    (h : contingency_table v1 v2 = Except.ok tbl) (a b : Nat) :
    tableCount tbl a b =
      (v1.data.zip v2.data).countP (fun p => p == (a, b)) := by
  by_cases hmem : (a, b) ∈ v1.data.zip v2.data
  · have hab : a ∈ v1.data ∧ b ∈ v2.data := List.of_mem_zip hmem
    have he : (((a, b), (v1.data.zip v2.data).countP (fun p => p == (a, b)))
        : (Nat × Nat) × Nat) ∈ tbl := by
      rw [mem_ct_table h]
      exact ⟨a, b, Nat.lt_succ_of_le (le_maxL hab.1),
        Nat.lt_succ_of_le (le_maxL hab.2), hmem, rfl⟩
    have hsome : (tbl.find? (fun e => e.1 == (a, b))).isSome = true :=
      List.find?_isSome.mpr ⟨_, he, by simp⟩
    obtain ⟨f, hf⟩ := Option.isSome_iff_exists.mp hsome
    have hpf := List.find?_some hf
    have hfmem := List.mem_of_find?_eq_some hf
    rw [mem_ct_table h] at hfmem
    obtain ⟨a', b', -, -, -, rfl⟩ := hfmem
    simp only [beq_iff_eq, Prod.mk.injEq] at hpf
    obtain ⟨rfl, rfl⟩ := hpf
    unfold tableCount
    rw [hf]
    rfl
  · have hnone : tbl.find? (fun e => e.1 == (a, b)) = none := by
      rw [List.find?_eq_none]
      intro e he hpe
      rw [mem_ct_table h] at he
      obtain ⟨a', b', -, -, hmem', rfl⟩ := he
      simp only [beq_iff_eq, Prod.mk.injEq] at hpe
      obtain ⟨rfl, rfl⟩ := hpe
      exact hmem hmem'
    have hcount : (v1.data.zip v2.data).countP (fun p => p == (a, b)) = 0 := by
      rw [List.countP_eq_zero]
      intro p hp hpe
      rw [beq_iff_eq] at hpe
      subst hpe
      exact hmem hp
    unfold tableCount
    rw [hnone, hcount]
    rfl

/-! ### Split-body relabeling: the consecutive renumbering -/

theorem mem_origLabels {L : List Nat} {v : Nat} :
    v ∈ origLabels L ↔ v ≠ 0 ∧ v ∈ L := by
  unfold origLabels
  rw [List.mem_filter, List.mem_range]
  constructor
  · rintro ⟨-, h⟩
    simp only [Bool.and_eq_true, decide_eq_true_eq] at h
    exact ⟨h.1, List.elem_iff.mp h.2⟩
  · rintro ⟨h1, h2⟩
    refine ⟨Nat.lt_succ_of_le (le_maxL h2), ?_⟩
    simp only [Bool.and_eq_true, decide_eq_true_eq]
    exact ⟨h1, List.elem_iff.mpr h2⟩

theorem origLabels_pairwise (L : List Nat) :
    (origLabels L).Pairwise (· < ·) :=
  (List.pairwise_lt_range _).filter _

theorem countP_lt_length {l : List Nat} {p : Nat → Bool} {x : Nat}
    (hx : x ∈ l) (hp : p x = false) : l.countP p < l.length := by
  rcases Nat.lt_or_ge (l.countP p) l.length with h | h
  · exact h
  · exfalso
    have heq : l.countP p = l.length :=
      Nat.le_antisymm (List.countP_le_length _) h
    have := (List.countP_eq_length.mp heq) x hx
    rw [hp] at this
    cases this

theorem o2c_eq_zero_iff {L : List Nat} {v : Nat} :
    orig_to_consecutive L v = 0 ↔ v = 0 := by
  unfold orig_to_consecutive
  split
  · simp_all
  · simp_all

theorem o2c_le {L : List Nat} {v : Nat} (hv : v ∈ L) :
    orig_to_consecutive L v ≤ max_consecutive_label L := by
  unfold orig_to_consecutive max_consecutive_label
  split
  · exact Nat.zero_le _
  · rename_i hvz
    have hmem : v ∈ origLabels L := mem_origLabels.mpr ⟨hvz, hv⟩
    have := countP_lt_length (p := fun d => decide (d < v)) hmem (by simp)
    omega

theorem c2o_o2c {L : List Nat} {v : Nat} (hv : v = 0 ∨ v ∈ L) :
    cons_to_orig L (orig_to_consecutive L v) = v := by
  rcases hv with rfl | hv
  · simp [orig_to_consecutive, cons_to_orig]
  · unfold orig_to_consecutive
    by_cases hvz : v = 0
    · simp [hvz, cons_to_orig]
    · rw [if_neg hvz]
      unfold cons_to_orig
      rw [if_neg (by omega)]
      have hmem : v ∈ origLabels L := mem_origLabels.mpr ⟨hvz, hv⟩
      have := rank_getD (origLabels_pairwise L) hmem
      simpa using this

theorem c2o_mem {L : List Nat} {r : Nat} (h1 : 1 ≤ r)
    (h2 : r ≤ max_consecutive_label L) :
    cons_to_orig L r ∈ origLabels L := by
  unfold cons_to_orig
  rw [if_neg (by omega)]
  exact getD_mem (by unfold max_consecutive_label at h2; omega)

theorem o2c_c2o {L : List Nat} {r : Nat} (hr : r ≤ max_consecutive_label L) :
    orig_to_consecutive L (cons_to_orig L r) = r := by
  by_cases hrz : r = 0
  · simp [hrz, cons_to_orig, orig_to_consecutive]
  · have hmem : cons_to_orig L r ∈ origLabels L :=
      c2o_mem (by omega) hr
    have hnz : cons_to_orig L r ≠ 0 := (mem_origLabels.mp hmem).1
    have hlt : r - 1 < (origLabels L).length := by
      unfold max_consecutive_label at hr
      omega
    have hrank := getD_rank (origLabels_pairwise L) hlt
    have hc2o : cons_to_orig L r = (origLabels L).getD (r - 1) 0 := by
      unfold cons_to_orig
      rw [if_neg hrz]
    unfold orig_to_consecutive
    rw [if_neg hnz, hc2o, hrank]
    omega

theorem c2o_nonzero {L : List Nat} {r : Nat} (h1 : 1 ≤ r)
    (h2 : r ≤ max_consecutive_label L) : cons_to_orig L r ≠ 0 :=
  (mem_origLabels.mp (c2o_mem h1 h2)).1

theorem labels_consecutive_length (L : List Nat) :
    (labels_consecutive L).length = L.length := by
  simp [labels_consecutive]

theorem labels_consecutive_getD {L : List Nat} {i : Nat} (hi : i < L.length) :
    (labels_consecutive L).getD i 0 = orig_to_consecutive L (L.getD i 0) := by
  unfold labels_consecutive
  rw [List.getD_eq_getElem _ _ (by simpa using hi), List.getElem_map,
    List.getD_eq_getElem _ _ hi]

theorem labels_consecutive_le {L : List Nat} {x : Nat}
    (hx : x ∈ labels_consecutive L) : x ≤ max_consecutive_label L := by
  obtain ⟨v, hv, rfl⟩ := List.mem_map.mp hx
  exact o2c_le hv

theorem maxL_labels_consecutive (L : List Nat) :
    maxL (labels_consecutive L) = max_consecutive_label L := by
  apply Nat.le_antisymm
  · exact maxL_le_iff.mpr (fun x hx => labels_consecutive_le hx)
  · by_cases hN : max_consecutive_label L = 0
    · omega
    · have hmem : cons_to_orig L (max_consecutive_label L) ∈ origLabels L :=
        c2o_mem (by omega) (le_refl _)
      have hinL : cons_to_orig L (max_consecutive_label L) ∈ L :=
        (mem_origLabels.mp hmem).2
      have : max_consecutive_label L ∈ labels_consecutive L := by
        unfold labels_consecutive
        exact List.mem_map.mpr ⟨_, hinL, o2c_c2o (le_refl _)⟩
      exact le_maxL this

/-! ### Split-body relabeling: the contingency table of `C` versus `S` -/

theorem mem_zip_iff {C S : List Nat} {p : Nat × Nat} :
    p ∈ C.zip S ↔ ∃ i, i < C.length ∧ i < S.length ∧
      C.getD i 0 = p.1 ∧ S.getD i 0 = p.2 := by
  induction C generalizing S with
  | nil => simp
  | cons a ct ih =>
    cases S with
    | nil => simp
    | cons b st =>
      rw [List.zip_cons_cons, List.mem_cons]
      constructor
      · rintro (rfl | hp)
        · exact ⟨0, by simp⟩
        · obtain ⟨i, hi1, hi2, hc, hs⟩ := ih.mp hp
          exact ⟨i + 1, by simpa using hi1, by simpa using hi2, by simpa using hc,
            by simpa using hs⟩
      · rintro ⟨i, hi1, hi2, hc, hs⟩
        match i with
        | 0 =>
          left
          simp only [List.getD_cons_zero] at hc hs
          exact Prod.ext hc.symm hs.symm
        | j + 1 =>
          right
          exact ih.mpr ⟨j, by simpa using hi1, by simpa using hi2,
            by simpa using hc, by simpa using hs⟩

theorem tcount_pos_iff {C S : List Nat} {r c : Nat} :
    0 < tcount C S r c ↔ ∃ i, i < C.length ∧ i < S.length ∧
      C.getD i 0 = r ∧ S.getD i 0 = c := by
  unfold tcount
  rw [List.countP_pos_iff]
  constructor
  · rintro ⟨p, hp, hpred⟩
    simp only [Bool.and_eq_true, beq_iff_eq] at hpred
    obtain ⟨i, hi1, hi2, hc, hs⟩ := mem_zip_iff.mp hp
    exact ⟨i, hi1, hi2, by rw [hc, hpred.1], by rw [hs, hpred.2]⟩
  · rintro ⟨i, hi1, hi2, hc, hs⟩
    exact ⟨(r, c), mem_zip_iff.mpr ⟨i, hi1, hi2, hc, hs⟩, by simp⟩

/-- Uniqueness of the containing region: `split_to_orig` sends an id
occurring at position `i` of `S` to the `C`-value at `i` (the component
refinement hypothesis makes the choice of position irrelevant). -/
theorem split_to_orig_eq {C S : List Nat}
    (hH2 : ∀ i, i < C.length → ∀ j, j < C.length →
      S.getD i 0 = S.getD j 0 → C.getD i 0 = C.getD j 0)
    (hlen : S.length = C.length) {i s : Nat}
    (hi : i < C.length) (hs : S.getD i 0 = s) :
    split_to_orig C S s = C.getD i 0 := by
  unfold split_to_orig
  have hmem : ((C.getD i 0, s) : Nat × Nat) ∈ C.zip S :=
    mem_zip_iff.mpr ⟨i, hi, by omega, rfl, hs⟩
  have hsome : ((C.zip S).find? (fun p => p.2 == s)).isSome = true :=
    List.find?_isSome.mpr ⟨_, hmem, by simp⟩
  obtain ⟨p, hp⟩ := Option.isSome_iff_exists.mp hsome
  have hpred := List.find?_some hp
  have hpmem := List.mem_of_find?_eq_some hp
  simp only [beq_iff_eq] at hpred
  obtain ⟨j, hj1, hj2, hcj, hsj⟩ := mem_zip_iff.mp hpmem
  rw [hp]
  have : C.getD j 0 = C.getD i 0 := hH2 j hj1 i hi (by rw [hsj, hpred, hs])
  simp only [Option.map_some', Option.getD_some]
  rw [← hcj, this]

theorem split_to_orig_zero {C S : List Nat}
    (hH1 : ∀ i, i < C.length → (S.getD i 0 = 0 ↔ C.getD i 0 = 0)) :
    split_to_orig C S 0 = 0 := by
  unfold split_to_orig
  cases hp : (C.zip S).find? (fun p => p.2 == 0) with
  | none => rfl
  | some p =>
    have hpred := List.find?_some hp
    have hpmem := List.mem_of_find?_eq_some hp
    simp only [beq_iff_eq] at hpred
    obtain ⟨j, hj1, hj2, hcj, hsj⟩ := mem_zip_iff.mp hpmem
    have : C.getD j 0 = 0 := (hH1 j hj1).mp (by rw [hsj, hpred])
    simp only [Option.map_some', Option.getD_some]
    rw [← hcj, this]

theorem split_to_orig_le {C S : List Nat} (s : Nat) :
    split_to_orig C S s ≤ maxL C := by
  unfold split_to_orig
  cases hp : (C.zip S).find? (fun p => p.2 == s) with
  | none => exact Nat.zero_le _
  | some p =>
    have hpmem := List.mem_of_find?_eq_some hp
    obtain ⟨j, hj1, hj2, hcj, hsj⟩ := mem_zip_iff.mp hpmem
    simp only [Option.map_some', Option.getD_some]
    rw [← hcj]
    exact getD_le_maxL hj1

theorem tcount_le_rowMax {C S : List Nat} {r c : Nat} (hc : c ≤ maxL S) :
    tcount C S r c ≤ rowMax C S r := by
  unfold rowMax
  exact le_maxL (List.mem_map.mpr ⟨c, List.mem_range.mpr (by omega), rfl⟩)

/-- `main_split` attains the row maximum and lies in the column range. -/
theorem main_split_spec (C S : List Nat) (r : Nat) :
    tcount C S r (main_split C S r) = rowMax C S r ∧
    main_split C S r ≤ maxL S := by
  have hex : ∃ c, c < maxL S + 1 ∧
      (tcount C S r c == rowMax C S r) = true := by
    by_cases h0 : rowMax C S r = 0
    · refine ⟨0, by omega, ?_⟩
      have : tcount C S r 0 ≤ rowMax C S r := tcount_le_rowMax (Nat.zero_le _)
      simp only [beq_iff_eq]
      omega
    · have hmem := maxL_mem (l := (List.range (maxL S + 1)).map (tcount C S r))
        (by unfold rowMax at h0; exact h0)
      obtain ⟨c, hc, hceq⟩ := List.mem_map.mp hmem
      exact ⟨c, List.mem_range.mp hc, by simp [hceq]; rfl⟩
  have hsome := find?_range_isSome hex
  obtain ⟨c0, hc0⟩ := Option.isSome_iff_exists.mp hsome
  obtain ⟨hlt, hpred, -⟩ := find?_range_spec hc0
  have hmain : main_split C S r = c0 := by
    unfold main_split
    rw [hc0]
    rfl
  rw [hmain]
  simp only [beq_iff_eq] at hpred
  exact ⟨hpred, by omega⟩

/-- Rows `1..N` of the contingency table are nonempty: every consecutive
label occurs in the volume. -/
theorem rowMax_pos {L S : List Nat} (hlen : S.length = L.length) {r : Nat}
    (h1 : 1 ≤ r) (h2 : r ≤ max_consecutive_label L) :
    0 < rowMax (labels_consecutive L) S r := by
  have hmem : cons_to_orig L r ∈ L := (mem_origLabels.mp (c2o_mem h1 h2)).2
  obtain ⟨i, hi, hgi⟩ := List.mem_iff_getElem.mp hmem
  have hCi : (labels_consecutive L).getD i 0 = r := by
    rw [labels_consecutive_getD hi, List.getD_eq_getElem _ _ hi, hgi,
      o2c_c2o h2]
  have hSi : S.getD i 0 ≤ maxL S := getD_le_maxL (by omega)
  have hpos : 0 < tcount (labels_consecutive L) S r (S.getD i 0) :=
    tcount_pos_iff.mpr ⟨i, by rw [labels_consecutive_length]; exact hi,
      by omega, hCi, rfl⟩
  have := tcount_le_rowMax (C := labels_consecutive L) (r := r) hSi
  omega

/-! ### Split-body relabeling: main and nonmain split ids -/

theorem cc_len {L S : List Nat} (h : IsCCOf L S) :
    S.length = (labels_consecutive L).length := by
  rw [labels_consecutive_length]
  exact h.1

theorem cc_H1C {L S : List Nat} (h : IsCCOf L S) :
    ∀ i, i < (labels_consecutive L).length →
      (S.getD i 0 = 0 ↔ (labels_consecutive L).getD i 0 = 0) := by
  intro i hi
  rw [labels_consecutive_length] at hi
  rw [labels_consecutive_getD hi, o2c_eq_zero_iff]
  exact h.2.1 i hi

theorem cc_H2C {L S : List Nat} (h : IsCCOf L S) :
    ∀ i, i < (labels_consecutive L).length →
      ∀ j, j < (labels_consecutive L).length →
      S.getD i 0 = S.getD j 0 →
      (labels_consecutive L).getD i 0 = (labels_consecutive L).getD j 0 := by
  intro i hi j hj hs
  rw [labels_consecutive_length] at hi hj
  rw [labels_consecutive_getD hi, labels_consecutive_getD hj]
  exact congrArg _ (h.2.2.1 i hi j hj hs)

/-- The main split id of a nonempty row is owned by that row and nonzero. -/
theorem main_owned {L S : List Nat} (h : IsCCOf L S) {r : Nat}
    (h1 : 1 ≤ r) (h2 : r ≤ max_consecutive_label L) :
    split_to_orig (labels_consecutive L) S
      (main_split (labels_consecutive L) S r) = r ∧
    main_split (labels_consecutive L) S r ≠ 0 := by
  have hpos : 0 < tcount (labels_consecutive L) S r
      (main_split (labels_consecutive L) S r) := by
    rw [(main_split_spec (labels_consecutive L) S r).1]
    exact rowMax_pos h.1 h1 h2
  obtain ⟨i, hi1, hi2, hC, hS⟩ := tcount_pos_iff.mp hpos
  constructor
  · rw [split_to_orig_eq (cc_H2C h) (cc_len h) hi1 hS, hC]
  · intro h0
    rw [h0] at hS
    have := (cc_H1C h i hi1).mp hS
    omega

theorem row_zero_tcount {L S : List Nat} (h : IsCCOf L S) {c : Nat}
    (hc : c ≠ 0) : tcount (labels_consecutive L) S 0 c = 0 := by
  by_contra hne
  obtain ⟨i, hi1, hi2, hC, hS⟩ :=
    tcount_pos_iff.mp (Nat.pos_of_ne_zero hne)
  have := (cc_H1C h i hi1).mpr hC
  omega

theorem rowMax_zero_row {L S : List Nat} (h : IsCCOf L S) :
    rowMax (labels_consecutive L) S 0 =
      tcount (labels_consecutive L) S 0 0 := by
  apply Nat.le_antisymm
  · unfold rowMax
    rw [maxL_le_iff]
    intro x hx
    obtain ⟨c, hc, rfl⟩ := List.mem_map.mp hx
    by_cases hc0 : c = 0
    · subst hc0
      exact le_refl _
    · rw [row_zero_tcount h hc0]
      exact Nat.zero_le _
  · exact tcount_le_rowMax (Nat.zero_le _)

theorem main_split_zero {L S : List Nat} (h : IsCCOf L S) :
    main_split (labels_consecutive L) S 0 = 0 := by
  unfold main_split
  rw [List.range_succ_eq_map,
    List.find?_cons_of_pos _ (by simp [rowMax_zero_row h])]
  rfl

theorem nonmain_pairwise (C S : List Nat) :
    (nonmain_split_ids C S).Pairwise (· < ·) :=
  (List.pairwise_lt_range _).filter _

theorem mem_nonmain_iff {L S : List Nat} (h : IsCCOf L S) {s : Nat} :
    s ∈ nonmain_split_ids (labels_consecutive L) S ↔
      1 ≤ s ∧ s ≤ maxL S ∧
      main_split (labels_consecutive L) S
        (split_to_orig (labels_consecutive L) S s) ≠ s := by
  unfold nonmain_split_ids
  rw [List.mem_filter, List.mem_range]
  constructor
  · rintro ⟨hs, hany⟩
    rw [List.any_eq_true] at hany
    obtain ⟨r, hr, hpred⟩ := hany
    simp only [Bool.and_eq_true, Bool.not_eq_true', beq_eq_false_iff_ne,
      ne_eq] at hpred
    obtain ⟨htc, hmain⟩ := hpred
    obtain ⟨i, hi1, hi2, hC, hS⟩ :=
      tcount_pos_iff.mp (Nat.pos_of_ne_zero htc)
    have hsto : split_to_orig (labels_consecutive L) S s =
        (labels_consecutive L).getD i 0 :=
      split_to_orig_eq (cc_H2C h) (cc_len h) hi1 hS
    have hs0 : s ≠ 0 := by
      intro h0
      rw [h0] at hS
      have := (cc_H1C h i hi1).mp hS
      rw [hC] at this
      subst this
      rw [main_split_zero h] at hmain
      exact hmain h0.symm
    refine ⟨by omega, by omega, ?_⟩
    rw [hsto, hC]
    exact fun he => hmain he
  · rintro ⟨hs1, hs2, hmain⟩
    have hocc : s ∈ S := h.2.2.2 s (by omega) hs1
    obtain ⟨i, hi, hgi⟩ := List.mem_iff_getElem.mp hocc
    have hiL : i < L.length := by rw [← h.1]; exact hi
    have hS : S.getD i 0 = s := by rw [List.getD_eq_getElem _ _ hi, hgi]
    have hiC : i < (labels_consecutive L).length := by
      rw [labels_consecutive_length]
      exact hiL
    have hsto : split_to_orig (labels_consecutive L) S s =
        (labels_consecutive L).getD i 0 :=
      split_to_orig_eq (cc_H2C h) (cc_len h) hiC hS
    refine ⟨by omega, ?_⟩
    rw [List.any_eq_true]
    refine ⟨(labels_consecutive L).getD i 0,
      List.mem_range.mpr (Nat.lt_succ_of_le (getD_le_maxL hiC)), ?_⟩
    simp only [Bool.and_eq_true, Bool.not_eq_true', beq_eq_false_iff_ne,
      ne_eq]
    constructor
    · have : 0 < tcount (labels_consecutive L) S
          ((labels_consecutive L).getD i 0) s :=
        tcount_pos_iff.mpr ⟨i, hiC, hi, rfl, hS⟩
      omega
    · rw [← hsto]
      exact fun he => hmain he

/-! ### Split-body relabeling: the nonconflicting renumbering and its
inverse -/

theorem s2n_nonmain {C S : List Nat} {s : Nat}
    (hs : s ∈ nonmain_split_ids C S) :
    split_to_nonconflicting C S s =
      maxL C + 1 + (nonmain_split_ids C S).countP (fun t => decide (t < s)) := by
  unfold split_to_nonconflicting
  rw [if_pos hs]

theorem s2n_not_nonmain {C S : List Nat} {s : Nat}
    (hs : s ∉ nonmain_split_ids C S) :
    split_to_nonconflicting C S s = split_to_orig C S s := by
  unfold split_to_nonconflicting
  rw [if_neg hs]

theorem nonmain_rank_lt {C S : List Nat} {s : Nat}
    (hs : s ∈ nonmain_split_ids C S) :
    (nonmain_split_ids C S).countP (fun t => decide (t < s)) <
      (nonmain_split_ids C S).length :=
  countP_lt_length hs (by simp)

theorem s2n_zero {L S : List Nat} (h : IsCCOf L S) :
    split_to_nonconflicting (labels_consecutive L) S 0 = 0 := by
  have h0 : (0 : Nat) ∉ nonmain_split_ids (labels_consecutive L) S := by
    intro hmem
    exact absurd ((mem_nonmain_iff h).mp hmem).1 (by omega)
  rw [s2n_not_nonmain h0, split_to_orig_zero (cc_H1C h)]

theorem sto_ne_zero_occurs {C S : List Nat} {s : Nat}
    (hsto : split_to_orig C S s ≠ 0) : s ∈ S := by
  unfold split_to_orig at hsto
  cases hp : (C.zip S).find? (fun p => p.2 == s) with
  | none => rw [hp] at hsto; simp at hsto
  | some p =>
    have hpred := List.find?_some hp
    obtain ⟨j, hj1, hj2, hcj, hsj⟩ :=
      mem_zip_iff.mp (List.mem_of_find?_eq_some hp)
    simp only [beq_iff_eq] at hpred
    rw [← hpred, ← hsj]
    exact getD_mem hj2

/-- Any split id whose nonconflicting image is a low id `1..N` must be the
main split id of that row. -/
theorem s2n_eq_low {L S : List Nat} (h : IsCCOf L S) {s' v : Nat}
    (hv1 : 1 ≤ v) (hv2 : v ≤ max_consecutive_label L)
    (heq : split_to_nonconflicting (labels_consecutive L) S s' = v) :
    s' = main_split (labels_consecutive L) S v := by
  by_cases hnm : s' ∈ nonmain_split_ids (labels_consecutive L) S
  · rw [s2n_nonmain hnm, maxL_labels_consecutive] at heq
    omega
  · rw [s2n_not_nonmain hnm] at heq
    have hocc : s' ∈ S := sto_ne_zero_occurs (by rw [heq]; omega)
    have hs'0 : s' ≠ 0 := by
      intro h0
      rw [h0, split_to_orig_zero (cc_H1C h)] at heq
      omega
    have hnot := hnm
    rw [mem_nonmain_iff h] at hnot
    push_neg at hnot
    have hmain := hnot (by omega) (le_maxL hocc)
    rw [heq] at hmain
    exact hmain.symm

theorem s2n_main_split {L S : List Nat} (h : IsCCOf L S) {v : Nat}
    (hv1 : 1 ≤ v) (hv2 : v ≤ max_consecutive_label L) :
    split_to_nonconflicting (labels_consecutive L) S
      (main_split (labels_consecutive L) S v) = v := by
  have hmo := main_owned h hv1 hv2
  have hnm : main_split (labels_consecutive L) S v ∉
      nonmain_split_ids (labels_consecutive L) S := by
    intro hmem
    have := (mem_nonmain_iff h).mp hmem
    rw [hmo.1] at this
    exact this.2.2 rfl
  rw [s2n_not_nonmain hnm, hmo.1]

theorem n2s_low {L S : List Nat} (h : IsCCOf L S) {v : Nat}
    (hv1 : 1 ≤ v) (hv2 : v ≤ max_consecutive_label L) :
    nonconflicting_to_split (labels_consecutive L) S v =
      main_split (labels_consecutive L) S v := by
  unfold nonconflicting_to_split
  have hex : ∃ x, x < maxL S + 1 ∧
      (split_to_nonconflicting (labels_consecutive L) S x == v) = true :=
    ⟨main_split (labels_consecutive L) S v,
      by have := (main_split_spec (labels_consecutive L) S v).2; omega,
      by simp [s2n_main_split h hv1 hv2]⟩
  obtain ⟨c0, hc0⟩ := Option.isSome_iff_exists.mp (find?_range_isSome hex)
  obtain ⟨-, hpred, -⟩ := find?_range_spec hc0
  simp only [beq_iff_eq] at hpred
  rw [hc0]
  simp only [Option.getD_some]
  exact s2n_eq_low h hv1 hv2 hpred

theorem n2o_id {L S : List Nat} (h : IsCCOf L S) {v : Nat}
    (hv : v ≤ max_consecutive_label L) :
    nonconflicting_to_orig (labels_consecutive L) S v = v := by
  by_cases hv0 : v = 0
  · subst hv0
    unfold nonconflicting_to_orig
    have h0 : nonconflicting_to_split (labels_consecutive L) S 0 = 0 := by
      unfold nonconflicting_to_split
      rw [List.range_succ_eq_map,
        List.find?_cons_of_pos _ (by simp [s2n_zero h])]
      rfl
    rw [h0, split_to_orig_zero (cc_H1C h)]
  · unfold nonconflicting_to_orig
    rw [n2s_low h (by omega) hv]
    exact (main_owned h (by omega) hv).1

/-- Any split id whose nonconflicting image is the fresh id `N + 1 + j`
must be the `j`-th nonmain split id. -/
theorem s2n_eq_high {L S : List Nat} {s' j : Nat}
    (heq : split_to_nonconflicting (labels_consecutive L) S s' =
      max_consecutive_label L + 1 + j) :
    s' = (nonmain_split_ids (labels_consecutive L) S).getD j 0 := by
  by_cases hnm : s' ∈ nonmain_split_ids (labels_consecutive L) S
  · rw [s2n_nonmain hnm, maxL_labels_consecutive] at heq
    have hrank : (nonmain_split_ids (labels_consecutive L) S).countP
        (fun t => decide (t < s')) = j := by omega
    have hgd := rank_getD (nonmain_pairwise (labels_consecutive L) S) hnm
    rw [hrank] at hgd
    exact hgd.symm
  · rw [s2n_not_nonmain hnm] at heq
    have := split_to_orig_le (C := labels_consecutive L) (S := S) s'
    rw [maxL_labels_consecutive] at this
    omega

theorem n2s_high {L S : List Nat} (h : IsCCOf L S) {j : Nat}
    (hj : j < (nonmain_split_ids (labels_consecutive L) S).length) :
    nonconflicting_to_split (labels_consecutive L) S
      (max_consecutive_label L + 1 + j) =
      (nonmain_split_ids (labels_consecutive L) S).getD j 0 := by
  unfold nonconflicting_to_split
  have hsmem : (nonmain_split_ids (labels_consecutive L) S).getD j 0 ∈
      nonmain_split_ids (labels_consecutive L) S := getD_mem hj
  have hle : (nonmain_split_ids (labels_consecutive L) S).getD j 0 ≤ maxL S :=
    ((mem_nonmain_iff h).mp hsmem).2.1
  have hs2n : split_to_nonconflicting (labels_consecutive L) S
      ((nonmain_split_ids (labels_consecutive L) S).getD j 0) =
      max_consecutive_label L + 1 + j := by
    rw [s2n_nonmain hsmem,
      getD_rank (nonmain_pairwise (labels_consecutive L) S) hj,
      maxL_labels_consecutive]
  have hex : ∃ x, x < maxL S + 1 ∧
      (split_to_nonconflicting (labels_consecutive L) S x ==
        max_consecutive_label L + 1 + j) = true :=
    ⟨(nonmain_split_ids (labels_consecutive L) S).getD j 0, by omega,
      by simpa using hs2n⟩
  obtain ⟨c0, hc0⟩ := Option.isSome_iff_exists.mp (find?_range_isSome hex)
  obtain ⟨-, hpred, -⟩ := find?_range_spec hc0
  simp only [beq_iff_eq] at hpred
  rw [hc0]
  simp only [Option.getD_some]
  exact s2n_eq_high hpred

theorem n2o_high {L S : List Nat} (h : IsCCOf L S) {j : Nat}
    (hj : j < (nonmain_split_ids (labels_consecutive L) S).length) :
    nonconflicting_to_orig (labels_consecutive L) S
      (max_consecutive_label L + 1 + j) =
      split_to_orig (labels_consecutive L) S
        ((nonmain_split_ids (labels_consecutive L) S).getD j 0) := by
  unfold nonconflicting_to_orig
  rw [n2s_high h hj]

/-! ### Split-body relabeling: the relabeled volume and the returned
mapping -/

theorem labels_new_length (L S : List Nat) :
    (labels_new L S).length = S.length := by
  simp [labels_new]

theorem labels_new_getD {L S : List Nat} {i : Nat} (hi : i < S.length) :
    (labels_new L S).getD i 0 = cons_with_splits_to_orig_with_splits L
      (split_to_nonconflicting (labels_consecutive L) S (S.getD i 0)) := by
  unfold labels_new
  rw [List.getD_eq_getElem _ _ (by simpa using hi), List.getElem_map,
    List.getD_eq_getElem _ _ hi]

theorem cws2ows_low {L : List Nat} {v : Nat}
    (hv : v ≤ max_consecutive_label L) :
    cons_with_splits_to_orig_with_splits L v = cons_to_orig L v := by
  unfold cons_with_splits_to_orig_with_splits
  rw [if_pos hv]

theorem cws2ows_high {L : List Nat} {j : Nat} :
    cons_with_splits_to_orig_with_splits L (max_consecutive_label L + 1 + j) =
      max_orig L + 1 + j := by
  unfold cons_with_splits_to_orig_with_splits
  rw [if_neg (by omega)]
  omega

theorem voxel_zero {L S : List Nat} (h : IsCCOf L S) {i : Nat}
    (hi : i < L.length) (hs : S.getD i 0 = 0) :
    (labels_new L S).getD i 0 = 0 ∧ L.getD i 0 = 0 := by
  have hL : L.getD i 0 = 0 := (h.2.1 i hi).mp hs
  have hiS : i < S.length := by rw [h.1]; exact hi
  rw [labels_new_getD hiS, hs, s2n_zero h, cws2ows_low (Nat.zero_le _)]
  exact ⟨by simp [cons_to_orig], hL⟩

theorem voxel_main {L S : List Nat} (h : IsCCOf L S) {i : Nat}
    (hi : i < L.length)
    (hnm : S.getD i 0 ∉ nonmain_split_ids (labels_consecutive L) S) :
    (labels_new L S).getD i 0 = L.getD i 0 := by
  have hiS : i < S.length := by rw [h.1]; exact hi
  have hiC : i < (labels_consecutive L).length := by
    rw [labels_consecutive_length]
    exact hi
  have hsto : split_to_orig (labels_consecutive L) S (S.getD i 0) =
      (labels_consecutive L).getD i 0 :=
    split_to_orig_eq (cc_H2C h) (cc_len h) hiC rfl
  rw [labels_new_getD hiS, s2n_not_nonmain hnm, hsto,
    labels_consecutive_getD hi, cws2ows_low (o2c_le (getD_mem hi))]
  exact c2o_o2c (Or.inr (getD_mem hi))

theorem voxel_nonmain {L S : List Nat} (h : IsCCOf L S) {i : Nat}
    (hi : i < L.length)
    (hnm : S.getD i 0 ∈ nonmain_split_ids (labels_consecutive L) S) :
    (labels_new L S).getD i 0 =
      max_orig L + 1 + (nonmain_split_ids (labels_consecutive L) S).countP
        (fun t => decide (t < S.getD i 0)) := by
  have hiS : i < S.length := by rw [h.1]; exact hi
  rw [labels_new_getD hiS, s2n_nonmain hnm, maxL_labels_consecutive,
    cws2ows_high]

theorem ow2cw_low {L : List Nat} {w : Nat} (hw : w ≤ max_orig L) :
    orig_with_splits_to_cons_with_splits L w = orig_to_consecutive L w := by
  unfold orig_with_splits_to_cons_with_splits
  rw [if_pos hw]

theorem ow2cw_high {L : List Nat} {j : Nat} :
    orig_with_splits_to_cons_with_splits L (max_orig L + 1 + j) =
      max_consecutive_label L + 1 + j := by
  unfold orig_with_splits_to_cons_with_splits
  rw [if_neg (by omega)]
  omega

/-- `orig_with_splits_to_orig` fixes every original label (and 0). -/
theorem o2o_id {L S : List Nat} (h : IsCCOf L S) {w : Nat}
    (hw : w = 0 ∨ w ∈ origLabels L) :
    orig_with_splits_to_orig L S w = w := by
  unfold orig_with_splits_to_orig
  have hwmo : w ≤ max_orig L := by
    rcases hw with rfl | hw
    · exact Nat.zero_le _
    · exact le_maxL (mem_origLabels.mp hw).2
  rw [ow2cw_low hwmo]
  have hle : orig_to_consecutive L w ≤ max_consecutive_label L := by
    rcases hw with rfl | hw
    · simp [orig_to_consecutive]
    · exact o2c_le (mem_origLabels.mp hw).2
  rw [n2o_id h hle]
  apply c2o_o2c
  rcases hw with rfl | hw
  · exact Or.inl rfl
  · exact Or.inr (mem_origLabels.mp hw).2

/-- `orig_with_splits_to_orig` sends the `j`-th fresh label to the original
label of the `j`-th nonmain piece, a nonzero original label. -/
theorem o2o_high {L S : List Nat} (h : IsCCOf L S) {j : Nat}
    (hj : j < num_splits (labels_consecutive L) S) :
    orig_with_splits_to_orig L S (max_orig L + 1 + j) =
      cons_to_orig L (split_to_orig (labels_consecutive L) S
        ((nonmain_split_ids (labels_consecutive L) S).getD j 0)) ∧
    orig_with_splits_to_orig L S (max_orig L + 1 + j) ∈ origLabels L := by
  have heq : orig_with_splits_to_orig L S (max_orig L + 1 + j) =
      cons_to_orig L (split_to_orig (labels_consecutive L) S
        ((nonmain_split_ids (labels_consecutive L) S).getD j 0)) := by
    unfold orig_with_splits_to_orig
    rw [ow2cw_high, n2o_high h hj]
  refine ⟨heq, ?_⟩
  rw [heq]
  have hsmem : (nonmain_split_ids (labels_consecutive L) S).getD j 0 ∈
      nonmain_split_ids (labels_consecutive L) S := getD_mem hj
  have hii := (mem_nonmain_iff h).mp hsmem
  have hocc : (nonmain_split_ids (labels_consecutive L) S).getD j 0 ∈ S :=
    h.2.2.2 _ (by omega) hii.1
  obtain ⟨i, hi, hgi⟩ := List.mem_iff_getElem.mp hocc
  have hiL : i < L.length := by rw [← h.1]; exact hi
  have hiC : i < (labels_consecutive L).length := by
    rw [labels_consecutive_length]
    exact hiL
  have hS : S.getD i 0 = (nonmain_split_ids (labels_consecutive L) S).getD j 0 := by
    rw [List.getD_eq_getElem _ _ hi, hgi]
  have hsto : split_to_orig (labels_consecutive L) S
      ((nonmain_split_ids (labels_consecutive L) S).getD j 0) =
      (labels_consecutive L).getD i 0 :=
    split_to_orig_eq (cc_H2C h) (cc_len h) hiC hS
  have hpos : 1 ≤ split_to_orig (labels_consecutive L) S
      ((nonmain_split_ids (labels_consecutive L) S).getD j 0) := by
    rw [hsto]
    have hSnz : S.getD i 0 ≠ 0 := by rw [hS]; omega
    by_contra hc
    push_neg at hc
    have hc0 : (labels_consecutive L).getD i 0 = 0 := by omega
    exact hSnz ((cc_H1C h i hiC).mpr hc0)
  have hleN : split_to_orig (labels_consecutive L) S
      ((nonmain_split_ids (labels_consecutive L) S).getD j 0) ≤
      max_consecutive_label L := by
    have := split_to_orig_le (C := labels_consecutive L) (S := S)
      ((nonmain_split_ids (labels_consecutive L) S).getD j 0)
    rw [maxL_labels_consecutive] at this
    exact this
  exact c2o_mem hpos hleN

theorem mem_ows_keys {L S : List Nat} {k : Nat} :
    k ∈ ows_keys L S ↔ k = 0 ∨ k ∈ origLabels L ∨
      ∃ j, j < num_splits (labels_consecutive L) S ∧
        k = max_orig L + 1 + j := by
  unfold ows_keys
  rw [List.mem_append, List.mem_cons]
  constructor
  · rintro ((rfl | h1) | h2)
    · exact Or.inl rfl
    · exact Or.inr (Or.inl h1)
    · obtain ⟨j, hj, rfl⟩ := List.mem_map.mp h2
      exact Or.inr (Or.inr ⟨j, List.mem_range.mp hj, rfl⟩)
  · rintro (rfl | h1 | ⟨j, hj, rfl⟩)
    · exact Or.inl (Or.inl rfl)
    · exact Or.inl (Or.inr h1)
    · exact Or.inr
        (List.mem_map.mpr ⟨j, List.mem_range.mpr hj, rfl⟩)

theorem ows_keys_nodup (L S : List Nat) : (ows_keys L S).Nodup := by
  unfold ows_keys
  rw [List.nodup_append]
  refine ⟨?_, ?_, ?_⟩
  · rw [List.nodup_cons]
    exact ⟨fun hm => (mem_origLabels.mp hm).1 rfl,
      pairwise_lt_nodup (origLabels_pairwise L)⟩
  · apply List.Nodup.map ?_ (List.nodup_range _)
    intro a b hab
    have hab2 : max_orig L + 1 + a = max_orig L + 1 + b := hab
    omega
  · intro x hx1 hx2
    obtain ⟨j, hj, hk⟩ := List.mem_map.mp hx2
    have hmo : max_orig L = maxL L := rfl
    rcases List.mem_cons.mp hx1 with rfl | ho
    · omega
    · have := le_maxL (mem_origLabels.mp ho).2
      omega

theorem find?_assoc_filterMap {keys : List Nat} (hnd : keys.Nodup)
    (f : Nat → Nat) (keep : Nat → Prop) [DecidablePred keep] (v : Nat) :
    ((keys.filterMap
      (fun k => if keep k then some (k, f k) else none)).find?
        (fun p => p.1 == v)) =
      if v ∈ keys ∧ keep v then some (v, f v) else none := by
  induction keys with
  | nil => simp
  | cons a t ih =>
    rw [List.nodup_cons] at hnd
    by_cases hka : keep a
    · rw [show List.filterMap
          (fun k => if keep k then some (k, f k) else none) (a :: t) =
          (a, f a) :: List.filterMap
            (fun k => if keep k then some (k, f k) else none) t by
        rw [List.filterMap_cons]
        simp [hka]]
      by_cases hva : v = a
      · subst hva
        rw [List.find?_cons_of_pos _ (by simp)]
        rw [if_pos ⟨List.mem_cons_self _ _, hka⟩]
      · rw [List.find?_cons_of_neg _ (by simpa using Ne.symm hva), ih hnd.2]
        by_cases hvt : v ∈ t ∧ keep v
        · rw [if_pos hvt, if_pos ⟨List.mem_cons_of_mem _ hvt.1, hvt.2⟩]
        · rw [if_neg hvt, if_neg (by
            rintro ⟨hmem, hkv⟩
            rcases List.mem_cons.mp hmem with rfl | hmt
            · exact hva rfl
            · exact hvt ⟨hmt, hkv⟩)]
    · rw [show List.filterMap
          (fun k => if keep k then some (k, f k) else none) (a :: t) =
          List.filterMap
            (fun k => if keep k then some (k, f k) else none) t by
        rw [List.filterMap_cons]
        simp [hka]]
      rw [ih hnd.2]
      by_cases hvt : v ∈ t ∧ keep v
      · rw [if_pos hvt, if_pos ⟨List.mem_cons_of_mem _ hvt.1, hvt.2⟩]
      · rw [if_neg hvt, if_neg (by
          rintro ⟨hmem, hkv⟩
          rcases List.mem_cons.mp hmem with rfl | hmt
          · exact hka hkv
          · exact hvt ⟨hmt, hkv⟩)]

theorem applyMapping_new_to_orig (L S : List Nat) (v : Nat) :
    applyMapping (new_to_orig L S) v =
      if v ∈ ows_keys L S ∧ (max_orig L < v ∨
        orig_with_splits_to_orig L S v ∈ split_labels L S)
      then orig_with_splits_to_orig L S v else v := by
  unfold applyMapping new_to_orig
  rw [find?_assoc_filterMap (ows_keys_nodup L S)
    (orig_with_splits_to_orig L S)
    (fun k => max_orig L < k ∨
      orig_with_splits_to_orig L S k ∈ split_labels L S) v]
  split
  · rfl
  · rfl

theorem mem_split_labels {L S : List Nat} {x : Nat} :
    x ∈ split_labels L S ↔
      ∃ j, j < num_splits (labels_consecutive L) S ∧
        x = orig_with_splits_to_orig L S (max_orig L + 1 + j) := by
  unfold split_labels
  rw [List.mem_filterMap]
  constructor
  · rintro ⟨k, hk, hf⟩
    split at hf
    · rename_i hmo
      cases hf
      rcases mem_ows_keys.mp hk with rfl | hko | ⟨j, hj, rfl⟩
      · omega
      · have := le_maxL (mem_origLabels.mp hko).2
        have hmo : max_orig L = maxL L := rfl
        omega
      · exact ⟨j, hj, rfl⟩
    · cases hf
  · rintro ⟨j, hj, rfl⟩
    refine ⟨max_orig L + 1 + j,
      mem_ows_keys.mpr (Or.inr (Or.inr ⟨j, hj, rfl⟩)), ?_⟩
    rw [if_pos (by omega)]

theorem split_labels_orig {L S : List Nat} (h : IsCCOf L S) {x : Nat}
    (hx : x ∈ split_labels L S) : x ∈ origLabels L := by
  obtain ⟨j, hj, rfl⟩ := mem_split_labels.mp hx
  exact (o2o_high h hj).2

/-- Round trip: mapping every voxel of the split volume back through the
returned `new_to_orig` (labels absent from it pass through unchanged)
recovers the original volume. -/
theorem roundtrip_voxel {L S : List Nat} (h : IsCCOf L S) {i : Nat}
    (hi : i < L.length) :
    applyMapping (new_to_orig L S) ((labels_new L S).getD i 0) =
      L.getD i 0 := by
  by_cases hs0 : S.getD i 0 = 0
  · obtain ⟨hln, hL⟩ := voxel_zero h hi hs0
    rw [hln, hL, applyMapping_new_to_orig]
    rw [if_neg ?_]
    rintro ⟨-, hmo | hsl⟩
    · omega
    · rw [o2o_id h (Or.inl rfl)] at hsl
      exact (mem_origLabels.mp (split_labels_orig h hsl)).1 rfl
  · by_cases hnm : S.getD i 0 ∈ nonmain_split_ids (labels_consecutive L) S
    · rw [voxel_nonmain h hi hnm]
      have hj : (nonmain_split_ids (labels_consecutive L) S).countP
          (fun t => decide (t < S.getD i 0)) <
          num_splits (labels_consecutive L) S := nonmain_rank_lt hnm
      rw [applyMapping_new_to_orig,
        if_pos ⟨mem_ows_keys.mpr (Or.inr (Or.inr ⟨_, hj, rfl⟩)),
          Or.inl (by omega)⟩, (o2o_high h hj).1]
      have hnmj : (nonmain_split_ids (labels_consecutive L) S).getD
          ((nonmain_split_ids (labels_consecutive L) S).countP
            (fun t => decide (t < S.getD i 0))) 0 = S.getD i 0 :=
        rank_getD (nonmain_pairwise (labels_consecutive L) S) hnm
      rw [hnmj]
      have hiC : i < (labels_consecutive L).length := by
        rw [labels_consecutive_length]
        exact hi
      rw [split_to_orig_eq (cc_H2C h) (cc_len h) hiC rfl,
        labels_consecutive_getD hi]
      exact c2o_o2c (Or.inr (getD_mem hi))
    · rw [voxel_main h hi hnm, applyMapping_new_to_orig]
      have hLnz : L.getD i 0 ≠ 0 := by
        intro h0
        exact hs0 ((h.2.1 i hi).mpr h0)
      split
      · exact o2o_id h (Or.inr (mem_origLabels.mpr ⟨hLnz, getD_mem hi⟩))
      · rfl

/-- Background voxels stay background through `labels_new`. -/
theorem labels_new_zero {L S : List Nat} (h : IsCCOf L S) {i : Nat}
    (hi : i < L.length) (hz : L.getD i 0 = 0) :
    (labels_new L S).getD i 0 = 0 :=
  (voxel_zero h hi ((h.2.1 i hi).mpr hz)).1

/-- The returned mapping never mentions label 0, neither as key nor as
value. -/
theorem new_to_orig_nonzero {L S : List Nat} (h : IsCCOf L S)
    {p : Nat × Nat} (hp : p ∈ new_to_orig L S) : p.1 ≠ 0 ∧ p.2 ≠ 0 := by
  unfold new_to_orig at hp
  obtain ⟨k, hk, hf⟩ := List.mem_filterMap.mp hp
  split at hf
  · rename_i hcond
    cases hf
    constructor
    · intro h0
      subst h0
      rcases hcond with hmo | hsl
      · omega
      · rw [o2o_id h (Or.inl rfl)] at hsl
        exact (mem_origLabels.mp (split_labels_orig h hsl)).1 rfl
    · show orig_with_splits_to_orig L S k ≠ 0
      rcases hcond with hmo | hsl
      · rcases mem_ows_keys.mp hk with rfl | hko | ⟨j, hj, rfl⟩
        · omega
        · have := le_maxL (mem_origLabels.mp hko).2
          have hmo2 : max_orig L = maxL L := rfl
          omega
        · exact (mem_origLabels.mp (o2o_high h hj).2).1
      · exact (mem_origLabels.mp (split_labels_orig h hsl)).1
  · cases hf

/-! ## Claims -/

/-- C1: for every label volume `L` with connected-components labeling `S`,
mapping every voxel of the relabeled volume through `new_to_orig` (labels
absent from the mapping pass through unchanged) reproduces `L` exactly, and
every voxel that is 0 in `L` is 0 in the relabeled volume. -/
theorem split_disconnected_bodies_roundtrip (L S : List Nat)
    (h : IsCCOf L S) :
    (∀ i, i < L.length →
      applyMapping (split_disconnected_bodies L S).2
        ((split_disconnected_bodies L S).1.getD i 0) = L.getD i 0) ∧
    (∀ i, i < L.length → L.getD i 0 = 0 →
      (split_disconnected_bodies L S).1.getD i 0 = 0) :=
  ⟨fun i hi => roundtrip_voxel h hi, fun i hi hz => labels_new_zero h hi hz⟩

theorem split_disconnected_bodies_roundtrip_witness :
    IsCCOf [0, 1, 0, 1] [0, 1, 0, 2] ∧
    (∀ i, i < ([0, 1, 0, 1] : List Nat).length →
      applyMapping (split_disconnected_bodies [0, 1, 0, 1] [0, 1, 0, 2]).2
        ((split_disconnected_bodies [0, 1, 0, 1] [0, 1, 0, 2]).1.getD i 0) =
        ([0, 1, 0, 1] : List Nat).getD i 0) :=
  ⟨by decide,
    (split_disconnected_bodies_roundtrip [0, 1, 0, 1] [0, 1, 0, 2]
      (by decide)).1⟩

/-- C2: offset assignment walks the blocks in a fixed order giving each the
cumulative sum of preceding `max_id`s, so two distinct blocks can never map
local labels `1 ≤ a ≤ max_id(i)` and `1 ≤ b ≤ max_id(j)` to the same
offset global label. -/
theorem offset_assignment_globally_unique (maxIds : List Nat) (i j a b : Nat)
    (hi : i < maxIds.length) (hj : j < maxIds.length) (hij : i ≠ j)
    (ha1 : 1 ≤ a) (ha2 : a ≤ maxIds.getD i 0)
    (hb1 : 1 ≤ b) (hb2 : b ≤ maxIds.getD j 0) :
    a + blockOffset maxIds i ≠ b + blockOffset maxIds j := by
  rcases Nat.lt_or_ge i j with hlt | hge
  · exact Nat.ne_of_lt (offset_label_lt hlt hi ha2 hb1)
  · have hlt : j < i := by omega
    exact (Nat.ne_of_lt (offset_label_lt hlt hj hb2 ha1)).symm

theorem offset_assignment_globally_unique_witness :
    2 + blockOffset [2, 3] 0 ≠ 1 + blockOffset [2, 3] 1 :=
  offset_assignment_globally_unique [2, 3] 0 1 2 1 (by decide) (by decide)
    (by decide) (by decide) (by decide) (by decide) (by decide)

/-- C3 counterexample: the collected merge edges are not sorted before
reconciliation, and the resulting equivalence map depends on the arrival
order: the multiset with edges (1,2) and (1,3) yields different maps under
its two orders. -/
theorem reconcile_order_dependent_cex :
    [((1 : Nat), (2 : Nat)), (1, 3)].Perm [(1, 3), (1, 2)] ∧
    ¬ (∀ x, dlookup (body1body2 [(1, 2), (1, 3)]) x =
        dlookup (body1body2 [(1, 3), (1, 2)]) x) :=
  ⟨List.Perm.swap _ _ _, fun hall => absurd (hall 1) (by decide)⟩

/-- C3 amended: reconciliation folds the merge edges in arrival order with
no prior sorting, and the representative choice genuinely depends on that
order: two arrival orders of the same edge multiset produce different maps
(they pick different representatives), even though in this instance both
merge the same class \x7b1, 2, 3\x7d. -/
theorem reconcile_order_dependence :
    [((1 : Nat), (2 : Nat)), (1, 3)].Perm [(1, 3), (1, 2)] ∧
    dlookup (body1body2 [(1, 2), (1, 3)]) 1 ≠
      dlookup (body1body2 [(1, 3), (1, 2)]) 1 ∧
    (∀ x ∈ [1, 2, 3], ∀ y ∈ [1, 2, 3],
      ((dlookup (body1body2 [(1, 2), (1, 3)]) x).getD x =
          (dlookup (body1body2 [(1, 2), (1, 3)]) y).getD y ↔
        (dlookup (body1body2 [(1, 3), (1, 2)]) x).getD x =
          (dlookup (body1body2 [(1, 3), (1, 2)]) y).getD y)) :=
  ⟨List.Perm.swap _ _ _, by decide, by decide⟩

set_option maxRecDepth 1000000 in
set_option maxHeartbeats 4000000 in
/-- C4 counterexample: in the two-block scenario the final output does not
relabel B's global 4 to 2, and A's labels are not left unchanged. -/
theorem stitch_scenario_cex :
    (relabel scOffsets (body1body2 [(2, 4)]) scSvB scLabelsB).getD 0 0 ≠ 2 ∧
    relabel scOffsets (body1body2 [(2, 4)]) scSvA scLabelsA ≠ scLabelsA := by
  decide

set_option maxRecDepth 1000000 in
set_option maxHeartbeats 8000000 in
/-- C4 amended: with block A labeled \x7b1, 2\x7d, block B labeled \x7b1\x7d, B's 1
fully overlapping A's 2 at the shared face and offsets (0, 3), the pairwise
stage emits merge edge (2, 4); the final output relabels A's 2 to the
global label 4 of the higher-index block, whose labels are unchanged. -/
theorem stitch_scenario_amended :
    stitcher scOffsets [(scSvA, scB1), (scSvB, scB2)] =
      Except.ok (1, [(2, 4)]) ∧
    relabel scOffsets (body1body2 [(2, 4)]) scSvA scLabelsA =
      List.replicate 32 1 ++ List.replicate 32 4 ∧
    relabel scOffsets (body1body2 [(2, 4)]) scSvB scLabelsB =
      List.replicate 64 4 := by
  decide

/-- C5: label 0 is never split, merged, or renumbered: the split stage keeps
background voxels at 0 and never mentions 0 in `new_to_orig`; the pairwise
merge stage never emits an edge with a background endpoint; and the relabel
stage maps background back to 0 after adding the block offset. -/
theorem background_label_preserved :
    (∀ L S : List Nat, IsCCOf L S →
      (∀ i, i < L.length → L.getD i 0 = 0 →
        (labels_new L S).getD i 0 = 0) ∧
      (∀ p ∈ new_to_orig L S, p.1 ≠ 0 ∧ p.2 ≠ 0)) ∧
    (∀ (offsets : Nat → Nat) (group : List (Subvolume × Arr3))
      (k : Nat) (ml : List (Nat × Nat)),
      stitcher offsets group = Except.ok (k, ml) →
      ∀ p ∈ ml, p.1 ≠ 0 ∧ p.2 ≠ 0) ∧
    (∀ (offsets : Nat → Nat) (ml : List (Nat × Nat)) (sv : Subvolume)
      (labels : List Nat), (∀ p ∈ ml, p.1 ≠ 0) →
      ∀ i, i < labels.length → labels.getD i 0 = 0 →
      (relabel offsets ml sv labels).getD i 0 = 0) :=
  ⟨fun L S h =>
    ⟨fun i hi hz => labels_new_zero h hi hz,
     fun p hp => new_to_orig_nonzero h hp⟩,
   fun _ _ _ _ h p hp => stitcher_nonzero h p hp,
   fun _ _ _ _ hml _ hi hz => relabel_zero hml hi hz⟩

set_option maxRecDepth 1000000 in
set_option maxHeartbeats 8000000 in
theorem background_label_preserved_witness :
    (labels_new [0, 1, 0, 1] [0, 1, 0, 2]).getD 0 0 = 0 ∧
    ((2 : Nat) ≠ 0 ∧ (4 : Nat) ≠ 0) ∧
    (relabel scOffsets [(2, 4)] scSvB [0, 1]).getD 0 0 = 0 :=
  ⟨(background_label_preserved.1 [0, 1, 0, 1] [0, 1, 0, 2] (by decide)).1
      0 (by decide) (by decide),
   background_label_preserved.2.1 scOffsets [(scSvA, scB1), (scSvB, scB2)]
      1 [(2, 4)] (by decide) (2, 4) (by decide),
   background_label_preserved.2.2 scOffsets [(2, 4)] scSvB [0, 1]
      (by decide) 0 (by decide) (by decide)⟩

set_option maxRecDepth 1000000 in
set_option maxHeartbeats 8000000 in
/-- C6: on a volume whose label 5 is split into pieces of 100 and 30 voxels
with prior maximum label 9, the 100-voxel piece keeps label 5, the 30-voxel
piece receives the fresh label 10, the returned mapping is exactly
\x7b10: 5, 5: 5\x7d (the identity entry for the dominant piece included), and
the untouched label 9 is omitted. -/
theorem split_scenario_100_30 :
    IsCCOf scSplitL scSplitS ∧
    split_disconnected_bodies scSplitL scSplitS =
      (0 :: List.replicate 100 5 ++ List.replicate 30 10 ++ [9],
        [(5, 5), (10, 5)]) := by
  constructor
  · decide
  · decide

/-- C7: the global equivalence map produced by reconciliation is idempotent:
for every entry `k ↦ r`, the representative `r` either has no entry or maps
to itself, so applying the map twice equals applying it once. -/
theorem body1body2_idempotent (ml : List (Nat × Nat)) (k r : Nat)
    (h : dlookup (body1body2 ml) k = some r) :
    dlookup (body1body2 ml) r = none ∨
      dlookup (body1body2 ml) r = some r :=
  (recInv_reconcile ml).1 k r h

theorem body1body2_idempotent_witness :
    dlookup (body1body2 [(1, 2), (2, 3)]) 1 = some 3 ∧
    (dlookup (body1body2 [(1, 2), (2, 3)]) 3 = none ∨
      dlookup (body1body2 [(1, 2), (2, 3)]) 3 = some 3) :=
  ⟨by decide, body1body2_idempotent [(1, 2), (2, 3)] 1 3 (by decide)⟩

/-- C8: row argmax is deterministic with ties broken by lowest column: on a
dense table the returned column attains the row maximum and every smaller
column is strictly below it; on a sparse (row-major sorted, positive-count)
table the same holds against the dense reading of the table. -/
theorem row_argmax_lowest_tie :
    (∀ (table : List (List Nat)) (r : Nat), r < table.length →
      0 < (table.getD r []).length →
      ((table.getD r []).getD ((denseRowArgmax table).getD r 0) 0 =
        maxL (table.getD r []) ∧
      ∀ c, c < (denseRowArgmax table).getD r 0 →
        (table.getD r []).getD c 0 < maxL (table.getD r []))) ∧
    (∀ (entries : List (Nat × Nat × Nat)) (numRows : Nat),
      RowMajorSorted entries → (∀ e ∈ entries, 0 < e.2.2) →
      (∀ e ∈ entries, e.1 < numRows) → ∀ r, r < numRows →
      (sparseVal entries r ((sparseRowArgmax entries numRows).getD r 0) =
        sparseRowMax entries r ∧
      ∀ c, c < (sparseRowArgmax entries numRows).getD r 0 →
        sparseVal entries r c < sparseRowMax entries r)) := by
  constructor
  · intro table r hr hrow
    have hmap : (denseRowArgmax table).getD r 0 =
        npRowArgmax (table.getD r []) := by
      unfold denseRowArgmax
      rw [List.getD_eq_getElem _ _ (by simpa using hr), List.getElem_map,
        List.getD_eq_getElem _ _ hr]
    rw [hmap]
    obtain ⟨-, h2, h3⟩ := npRowArgmax_spec hrow
    exact ⟨h2, h3⟩
  · intro entries numRows hsort hpos hrows r hr
    exact sparseRowArgmax_spec hsort hpos hrows hr

theorem row_argmax_lowest_tie_witness :
    ((([5, 7, 7] : List Nat)).getD
      ((denseRowArgmax [[5, 7, 7]]).getD 0 0) 0 = maxL [5, 7, 7]) ∧
    sparseVal [(0, 1, 5), (0, 3, 5)] 0
      ((sparseRowArgmax [(0, 1, 5), (0, 3, 5)] 1).getD 0 0) =
      sparseRowMax [(0, 1, 5), (0, 3, 5)] 0 :=
  ⟨(row_argmax_lowest_tie.1 [[5, 7, 7]] 0 (by decide) (by decide)).1,
   (row_argmax_lowest_tie.2 [(0, 1, 5), (0, 3, 5)] 1 (by decide) (by decide)
     (by decide) 0 (by decide)).1⟩

/-- C9: a boundary group with a contributor count other than two, or whose
two boundary arrays have different shapes, raises an exception that fails
the whole pairwise merge stage, producing no partial output. -/
theorem malformed_boundary_group_fatal (offsets : Nat → Nat)
    (groups : List (List (Subvolume × Arr3)))
    (g : List (Subvolume × Arr3)) (hg : g ∈ groups) :
    (g.length ≠ 2 →
      ∃ m, stitchPairwiseStage offsets groups = Except.error m) ∧
    (∀ sv1 b1 sv2 b2, g = [(sv1, b1), (sv2, b2)] → b1.shape ≠ b2.shape →
      ∃ m, stitchPairwiseStage offsets groups = Except.error m) := by
  constructor
  · intro hlen
    exact stitchPairwiseStage_error hg (stitcher_not_two hlen)
  · intro sv1 b1 sv2 b2 hgeq hshape
    subst hgeq
    exact stitchPairwiseStage_error hg (stitcher_shape_mismatch hshape)

theorem malformed_boundary_group_fatal_witness :
    ∃ m, stitchPairwiseStage scOffsets
      [[(scSvA, scB1), (scSvB, scB2), (scSvB, scB2)]] = Except.error m :=
  (malformed_boundary_group_fatal scOffsets
    [[(scSvA, scB1), (scSvB, scB2), (scSvB, scB2)]]
    [(scSvA, scB1), (scSvB, scB2), (scSvB, scB2)]
    (List.mem_cons_self _ _)).1 (by decide)

/-- C10 counterexample: two volumes with different 3D shapes but the same
element count are accepted by `contingency_table` (the assert compares only
the flattened shapes), so construction does not fail on every 3D-shape
mismatch. -/
theorem contingency_shape_cex :
    (contingency_table ⟨1, 2, 3, [0, 0, 0, 0, 0, 0]⟩
      ⟨3, 2, 1, [0, 0, 0, 0, 0, 0]⟩).isOk = true ∧
    Arr3.shape ⟨1, 2, 3, [0, 0, 0, 0, 0, 0]⟩ ≠
      Arr3.shape ⟨3, 2, 1, [0, 0, 0, 0, 0, 0]⟩ := by
  decide

/-- C10 amended: `contingency_table` flattens both volumes and asserts only
that the flattened shapes (element counts) agree: it fails exactly when the
element counts differ, and on success returns the table of pairwise
co-occurrence counts. -/
theorem contingency_flattened_shape (v1 v2 : Arr3) :
    ((contingency_table v1 v2).isOk = true ↔
      v1.data.length = v2.data.length) ∧
    (∀ tbl, contingency_table v1 v2 = Except.ok tbl → ∀ a b,
      tableCount tbl a b =
        (v1.data.zip v2.data).countP (fun p => p == (a, b))) :=
  ⟨contingency_table_isOk v1 v2,
   fun tbl h a b => contingency_table_counts h a b⟩

theorem contingency_flattened_shape_witness :
    tableCount [(((1 : Nat), (3 : Nat)), (1 : Nat)), ((2, 3), 1)] 1 3 =
      ((⟨1, 1, 2, [1, 2]⟩ : Arr3).data.zip
        (⟨1, 1, 2, [3, 3]⟩ : Arr3).data).countP (fun p => p == (1, 3)) :=
  (contingency_flattened_shape ⟨1, 1, 2, [1, 2]⟩ ⟨1, 1, 2, [3, 3]⟩).2
    [((1, 3), 1), ((2, 3), 1)] (by decide) 1 3

end Morpho
